import Mathlib

set_option maxHeartbeats 1000000

/-
  Verification of the `shark` terminal text editor (src/src/main.rs and
  src/src/editor.rs) against its specification.

  The buffer (a `ropey::Rope`) is embedded as a `List Char`; ropey's
  `rope.lines()` iterator (which splits after every line feed, the final
  fragment after the last line feed being a line as well, so an empty rope
  has exactly one empty line) is embedded as `toLines`.

  Machine-integer conventions: `usize`/`u16` values are embedded as `Nat`.
  Arithmetic that Rust checks (plain `-` / `+` on unsigned integers, which
  fault on under/overflow) is embedded with `checkedSub` / `addU16`
  returning `Option`, `none` standing for the fault; `saturating_sub` is
  embedded as truncated `Nat` subtraction (which is saturating);
  `as u16` casts are embedded as `% 65536`.  Fallible rope operations
  (`insert`, `remove`, `slice`, which panic on out-of-range indices) are
  embedded with `Option`, `none` standing for the panic.
-/

/-- Checked unsigned subtraction: `a - b` on `usize`/`u16`, `none` is the
underflow fault. -/
def checkedSub (a b : Nat) : Option Nat :=
  if b ≤ a then some (a - b) else none

/-- Checked `u16` increment (`cursor_pos.0 += 1` / `cursor_pos.1 += 1`),
`none` is the overflow fault. -/
def addU16 (x : Nat) : Option Nat :=
  if x + 1 ≤ 65535 then some (x + 1) else none

/-- `Rope::insert` / `Rope::insert_char` at char index `idx`; panics
(`none`) when `idx` exceeds the rope length. -/
def ropeInsert (s : List Char) (idx : Nat) (t : List Char) : Option (List Char) :=
  if idx ≤ s.length then some (s.take idx ++ t ++ s.drop idx) else none

/-- `Rope::remove(a..b)`; panics (`none`) when `a > b` or `b` exceeds the
rope length. -/
def ropeRemove (s : List Char) (a b : Nat) : Option (List Char) :=
  if a ≤ b ∧ b ≤ s.length then some (s.take a ++ s.drop b) else none

/-- `Rope::slice(a..b)`; panics (`none`) when out of range. -/
def ropeSlice (s : List Char) (a b : Nat) : Option (List Char) :=
  if a ≤ b ∧ b ≤ s.length then some ((s.take b).drop a) else none

/-- UTF-8 byte length of a char sequence (`String::len` on the decoded
line, as used by `editor.rs::get_current_line_len`). -/
def utf8Len (l : List Char) : Nat :=
  (l.map Char.utf8Size).sum

/-- The lines of a rope, as produced by ropey's `lines()` iterator: each
line feed terminates a line (and belongs to it); the final fragment after
the last line feed is a line as well, so the line count is the number of
line feeds plus one. -/
def toLines : List Char → List (List Char)
  | [] => [[]]
  | c :: t =>
    if c = '\n' then ['\n'] :: toLines t
    else
      match toLines t with
      | [] => [[c]]
      | l :: ls => (c :: l) :: ls

/-- Sum of the lengths of a list of lines. -/
def lenSum (ls : List (List Char)) : Nat :=
  (ls.map List.length).sum

/-- Loop body of `main.rs::get_index_from_pos` (`pos` is `(column, row)`):
walk the enumerated lines; on `i == pos.1` add the column and stop, else
add the line's char length.  First argument of the recursion is the
enumeration counter `i`. -/
def giLoop (pos : Nat × Nat) : Nat → List (List Char) → Nat
  | _, [] => 0
  | i, line :: rest =>
    if i = pos.2 then pos.1 else line.length + giLoop pos (i + 1) rest

/-- `main.rs::get_index_from_pos`: absolute char offset of the absolute
position `pos = (column, row)`. -/
def get_index_from_pos (text : List Char) (pos : Nat × Nat) : Nat :=
  giLoop pos 0 (toLines text)

/-- Loop body of `editor.rs::get_rope_index`; identical to `giLoop` except
that the short-circuit test is `i >= pos.1` instead of `i == pos.1`. -/
def grLoop (pos : Nat × Nat) : Nat → List (List Char) → Nat
  | _, [] => 0
  | i, line :: rest =>
    if pos.2 ≤ i then pos.1 else line.length + grLoop pos (i + 1) rest

/-- `editor.rs::get_rope_index`: absolute char offset of the absolute
position `pos = (column, row)`. -/
def get_rope_index (text : List Char) (pos : Nat × Nat) : Nat :=
  grLoop pos 0 (toLines text)

-- ------------------------------------------------------------------
-- Loading and saving (Editor::new normalization, save)
-- ------------------------------------------------------------------

/-- Enumeration loop of `Editor::new` collecting the indices of all line
feeds (`for (i, c) in chars().enumerate() { if c == '\n' { push(i) } }`);
`i` is the running counter. -/
def nlIndicesFrom : List Char → Nat → List Nat
  | [], _ => []
  | c :: t, i =>
    if c = '\n' then i :: nlIndicesFrom t (i + 1) else nlIndicesFrom t (i + 1)

/-- Indices of all line feeds in the freshly read rope. -/
def nlIndices (s : List Char) : List Nat :=
  nlIndicesFrom s 0

/-- Insertion at index `i` (total form used by `Editor::new`, where the
indices are in range by construction). -/
def insertAt (s : List Char) (i : Nat) (c : Char) : List Char :=
  s.take i ++ c :: s.drop i

/-- Insertion loop of `Editor::new`:
`for (offset, i) in indices.enumerate() { rope.insert_char(i + offset, CR) }`.
The second recursion argument is the enumeration counter `offset` (the
`*offset += 1` in the source mutates a per-iteration copy and has no
effect). -/
def insertLoop : List Char → List Nat → Nat → List Char
  | s, [], _ => s
  | s, i :: rest, k => insertLoop (insertAt s (i + k) '\r') rest (k + 1)

/-- `Editor::new` buffer normalization (identical in `main.rs` and
`editor.rs`): insert a carriage return in front of every line feed of the
rope read from the file. -/
def load (s : List Char) : List Char :=
  insertLoop s (nlIndices s) 0

/-- Closed form of `load`: each line feed becomes CR LF, everything else
is kept. -/
def normalizeNL : List Char → List Char
  | [] => []
  | c :: t => (if c = '\n' then ['\r', '\n'] else [c]) ++ normalizeNL t

/-- `save` (identical in `main.rs` and `editor.rs`): write out every byte
of the buffer except the carriage returns
(`rope.bytes().filter(|c| *c != b'\r')`; the byte 0x0D occurs in UTF-8
exactly where the char `'\r'` occurs). -/
def save (s : List Char) : List Char :=
  s.filter (fun c => c ≠ '\r')

/-- Modelled from the spec (for the refinement comparison of claim C7):
reduce every occurrence of the two-character CR LF terminator to a single
line feed and perform no other transformation. -/
def stripCRLF : List Char → List Char
  | [] => []
  | c :: t =>
    if c = '\r' then
      match t with
      | [] => [c]
      | c2 :: t2 => if c2 = '\n' then '\n' :: stripCRLF t2 else c :: stripCRLF (c2 :: t2)
    else c :: stripCRLF t

/-- Every carriage return is immediately followed by a line feed. -/
def crPaired : List Char → Bool
  | [] => true
  | c :: t =>
    if c = '\r' then
      match t with
      | [] => false
      | c2 :: t2 => if c2 = '\n' then crPaired t2 else false
    else crPaired t

-- ------------------------------------------------------------------
-- The CR-LF buffer invariant (claim C4)
-- ------------------------------------------------------------------

/-- Scan checking that every line feed is immediately preceded by a
carriage return; the first argument is the character preceding the head of
the list (`none` at the very start of the buffer). -/
def noLFAfter : Option Char → List Char → Bool
  | _, [] => true
  | p, c :: t => (c ≠ '\n' || p = some '\r') && noLFAfter (some c) t

/-- Buffer invariant of claim C4: every line feed in the buffer is
immediately preceded by a carriage return. -/
def crlfOK (s : List Char) : Bool :=
  noLFAfter none s

/-- Well-formedness of a line decomposition: every line but the last ends
with its (only) line feed, and the last line contains none. -/
def linesWF : List (List Char) → Prop
  | [] => True
  | [l] => '\n' ∉ l
  | l :: ls => (∃ m, l = m ++ ['\n'] ∧ '\n' ∉ m) ∧ linesWF ls

-- ------------------------------------------------------------------
-- The main.rs editor state machine
-- ------------------------------------------------------------------

/-- Editor state of `main.rs`: the rope and the cursor position
`cursor_pos : (u16, u16)` (column `cursorX`, row `cursorY`).  `main.rs`
keeps no scroll offset.  `width`/`height` are the constant terminal
dimensions: the main loop runs `update_display` (which ends with
`MoveTo(cursor_pos)`, clamped by the terminal to the screen) before every
event, so in `handle_events` the `cursor::position()` reads return the
terminal-clamped `cursor_pos` (`termPos`), while the guards and moves use
the unclamped `cursor_pos` fields. -/
structure MainState where
  text : List Char
  cursorX : Nat
  cursorY : Nat
  width : Nat
  height : Nat
  deriving DecidableEq, Repr

/-- The value `cursor::position()` returns inside `handle_events`: the
`cursor_pos` the preceding `update_display` moved to, clamped by the
terminal to the screen. -/
def termPos (s : MainState) : Nat × Nat :=
  (min s.cursorX (s.width - 1), min s.cursorY (s.height - 1))

/-- `CursorMovement` enum (identical in both files). -/
inductive CursorMovement where
  | up | down | left | right
  deriving DecidableEq, Repr

/-- Key codes acted on by the editor; `other` covers every remaining
`KeyCode`. -/
inductive KeyCode where
  | esc | enter | up | down | left | right | backspace
  | char (c : Char)
  | other
  deriving DecidableEq, Repr

/-- One input event: a key press with its code and whether the modifier
set equals `CONTROL`, or anything else (non-press key events and non-key
events), which the `match` ignores. -/
inductive InEvent where
  | keyPress (code : KeyCode) (ctrl : Bool)
  | nonPress
  deriving DecidableEq, Repr

/-- Loop body of `main.rs::get_current_line_length`: find the line with
index `cursor_pos.1`, return its char length saturating-minus 2 (`Nat`
subtraction is saturating); 0 when the loop exhausts the lines. -/
def gclLoop (row : Nat) : Nat → List (List Char) → Nat
  | _, [] => 0
  | i, line :: rest =>
    if i = row then line.length - 2 else gclLoop row (i + 1) rest

/-- `main.rs::get_current_line_length`. -/
def get_current_line_length (s : MainState) : Nat :=
  gclLoop s.cursorY 0 (toLines s.text)

/-- `main.rs::attempt_cursor_move`.  `Up`/`Left` use `saturating_sub`
(truncated `Nat` subtraction); `Down` computes `text.lines().len() - 2`
(checked `usize` subtraction) cast `as u16`; `Right` compares the column
against `get_current_line_length() as u16`.  The `+ 1` in `Down`/`Right`
cannot overflow `u16` because of the strict comparison against a value
`< 65536`. -/
def attempt_cursor_move (m : CursorMovement) (s : MainState) : Option MainState :=
  match m with
  | .up => some { s with cursorY := s.cursorY - 1 }
  | .down => do
    let n ← checkedSub (toLines s.text).length 2
    if s.cursorY < n % 65536 then
      some { s with cursorY := s.cursorY + 1 }
    else
      some s
  | .right =>
    if s.cursorX < get_current_line_length s % 65536 then
      some { s with cursorX := s.cursorX + 1 }
    else
      some s
  | .left => some { s with cursorX := s.cursorX - 1 }

/-- The `match event` body of `main.rs::handle_events` (everything before
the final column clamp).  `Esc` is handled in `handle_events` itself and
never reaches this function.  Buffer indices are computed at
`cursor::position()`, i.e. the terminal-clamped cursor `termPos s`, while
the guards and cursor arithmetic use the raw `cursor_pos` fields. -/
def applyKey (e : InEvent) (s : MainState) : Option MainState :=
  match e with
  | .keyPress .esc _ => some s
  | .keyPress .enter _ => do
    let text ← ropeInsert s.text (get_index_from_pos s.text (termPos s)) ['\r', '\n']
    let y ← addU16 s.cursorY
    some { s with text := text, cursorX := 0, cursorY := y }
  | .keyPress .up _ => attempt_cursor_move .up s
  | .keyPress .down _ => attempt_cursor_move .down s
  | .keyPress .left _ => attempt_cursor_move .left s
  | .keyPress .right _ => attempt_cursor_move .right s
  | .keyPress .backspace _ =>
    if (s.cursorX, s.cursorY) = (0, 0) then some s
    else
      let idx := get_index_from_pos s.text (termPos s)
      if 0 < s.cursorX then do
        let a ← checkedSub idx 1
        let text ← ropeRemove s.text a idx
        attempt_cursor_move .left { s with text := text }
      else if get_current_line_length s = 0 then do
        let text ← ropeRemove s.text idx (idx + 2)
        let s1 ← attempt_cursor_move .up { s with text := text }
        some { s1 with cursorX := get_current_line_length s1 % 65536 }
      else do
        let s1 ← attempt_cursor_move .up s
        let s2 := { s1 with cursorX := get_current_line_length s1 % 65536 }
        let a ← checkedSub idx 2
        let text ← ropeRemove s2.text a idx
        some { s2 with text := text }
  | .keyPress (.char c) ctrl =>
    if c = 's' ∧ ctrl = true then some s
    else do
      let text ← ropeInsert s.text (get_index_from_pos s.text (termPos s)) [c]
      let x ← addU16 s.cursorX
      some { s with text := text, cursorX := x }
  | .keyPress .other _ => some s
  | .nonPress => some s

/-- The final clamp of `main.rs::handle_events` (line 260):
`cursor_pos.0 = min(cursor_pos.0, get_current_line_length() as u16)`. -/
def clampCursor (s : MainState) : MainState :=
  { s with cursorX := min s.cursorX (get_current_line_length s % 65536) }

/-- `main.rs::handle_events`: `Esc` returns `false` immediately (skipping
the clamp); every other event is handled and then the column clamp is
applied; the returned `Bool` is the continue flag. -/
def handle_events (e : InEvent) (s : MainState) : Option (MainState × Bool) :=
  match e with
  | .keyPress .esc _ => some (s, false)
  | _ => (applyKey e s).map (fun t => (clampCursor t, true))

/-- States of the `main.rs` editor reachable from a freshly loaded file by
input events (the `main` loop stops when the continue flag is `false`). -/
inductive Reachable : MainState → Prop where
  | init (raw : List Char) (w h : Nat) : Reachable ⟨load raw, 0, 0, w, h⟩
  | step (e : InEvent) (s t : MainState) :
      Reachable s → handle_events e s = some (t, true) → Reachable t

-- ------------------------------------------------------------------
-- The editor.rs editor state machine
-- ------------------------------------------------------------------

/-- Editor state of `editor.rs`: the rope and the scroll offset are struct
fields; the cursor lives in the terminal (read by `cursor::position()`,
written by `MoveTo`/`MoveUp`/...), embedded as the fields `x`, `y`.
`width`/`height` are the constant terminal dimensions
(`terminal::size()`); terminal cursor writes clamp to the screen. -/
structure EdState where
  rope : List Char
  x : Nat
  y : Nat
  scroll : Nat
  width : Nat
  height : Nat
  deriving DecidableEq, Repr

/-- `editor.rs::get_line_number`: `cursor::position().1 + scroll`. -/
def lineNumberE (t : EdState) : Nat :=
  t.y + t.scroll

/-- `editor.rs::get_current_line_len`:
`rope.get_line(line_number).unwrap().to_string().len() - 2`.
`get_line` is `none` past the last line (the `unwrap` panics), `len` is
the UTF-8 byte length, and the `- 2` is an unchecked `usize` subtraction
(`none` is the underflow fault). -/
def gclE (t : EdState) : Option Nat := do
  let line ← (toLines t.rope)[lineNumberE t]?
  checkedSub (utf8Len line) 2

/-- `editor.rs::get_cursor_index`: `get_rope_index` at the terminal cursor
position with the scroll offset added to the row. -/
def get_cursor_index (t : EdState) : Nat :=
  get_rope_index t.rope (t.x, t.y + t.scroll)

/-- `editor.rs::attempt_cursor_move`.  `Up`: saturating scroll decrement
when at the top row, then `MoveUp(1)` (the terminal clamps at row 0).
`Down`: guarded by `line_number < lines.len() - 2` (checked subtraction);
increments scroll at the bottom row (`size().1 - 1`, checked `u16`
subtraction) and `MoveDown(1)` clamps at the bottom of the screen.
`Left`/`Right` move the terminal cursor, clamped to the screen. -/
def acmE (m : CursorMovement) (t : EdState) : Option EdState :=
  match m with
  | .up =>
    let t1 := if t.y = 0 then { t with scroll := t.scroll - 1 } else t
    some { t1 with y := t1.y - 1 }
  | .down => do
    let n ← checkedSub (toLines t.rope).length 2
    if t.y + t.scroll < n then do
      let hm1 ← checkedSub t.height 1
      let t1 := if t.y = hm1 then { t with scroll := t.scroll + 1 } else t
      some { t1 with y := min (t1.y + 1) (t1.height - 1) }
    else
      some t
  | .left => some { t with x := t.x - 1 }
  | .right => do
    let n ← gclE t
    if t.x < n % 65536 then
      some { t with x := min (t.x + 1) (t.width - 1) }
    else
      some t

/-- The `match event` body of `editor.rs::step` (`Esc` is handled in
`stepE`).  Display-only commands (`redraw`, screen clears) are dropped;
cursor commands update the embedded terminal cursor. -/
def stepArm (e : InEvent) (t : EdState) : Option EdState :=
  match e with
  | .keyPress .esc _ => some t
  | .keyPress .up _ => acmE .up t
  | .keyPress .down _ => acmE .down t
  | .keyPress .left _ => acmE .left t
  | .keyPress .right _ => acmE .right t
  | .keyPress (.char c) ctrl =>
    if c = 's' ∧ ctrl = true then some t
    else do
      let rope ← ropeInsert t.rope (get_cursor_index t) [c]
      acmE .right { t with rope := rope }
  | .keyPress .enter _ => do
    let rope ← ropeInsert t.rope (get_cursor_index t) ['\r', '\n']
    let t1 ← acmE .down { t with rope := rope }
    some { t1 with x := 0 }
  | .keyPress .backspace _ =>
    let idx := get_cursor_index t
    if 0 < t.x then do
      let a ← checkedSub idx 1
      let rope ← ropeRemove t.rope a idx
      acmE .left { t with rope := rope }
    else do
      let g ← gclE t
      if g = 0 ∧ lineNumberE t ≠ 0 then do
        let sc ← if t.y = 0 then checkedSub t.scroll 1 else some t.scroll
        let rope ← ropeRemove t.rope idx (idx + 2)
        let t1 ← acmE .up { t with scroll := sc, rope := rope }
        let n ← gclE t1
        some { t1 with x := min (n % 65536) (t1.width - 1) }
      else if lineNumberE t ≠ 0 then do
        let sc ← if t.y = 0 then checkedSub t.scroll 1 else some t.scroll
        let t1 ← acmE .up { t with scroll := sc }
        let n ← gclE t1
        let t2 := { t1 with x := min (n % 65536) (t1.width - 1) }
        let a ← checkedSub idx 2
        let rope ← ropeRemove t2.rope a idx
        some { t2 with rope := rope }
      else
        some t
  | .keyPress .other _ => some t
  | .nonPress => some t

/-- `editor.rs::step`: `Esc` returns `false` immediately; otherwise the
event's arm runs, then lines 158-166 re-read `get_current_line_len()`
(propagating its fault) and execute
`MoveTo(min(cursor.0, line_len as u16), cursor.1)` (the terminal clamps to
the screen). -/
def stepE (e : InEvent) (t : EdState) : Option (EdState × Bool) :=
  match e with
  | .keyPress .esc _ => some (t, false)
  | _ => do
    let t1 ← stepArm e t
    let n ← gclE t1
    some ({ t1 with x := min (min t1.x (n % 65536)) (t1.width - 1),
                    y := min t1.y (t1.height - 1) }, true)

-- ------------------------------------------------------------------
-- Syntax tree, leaf extraction and rendering
-- ------------------------------------------------------------------

/-- A tree-sitter syntax tree node: kind id, start/end `(row, column)`
positions and the child list. -/
inductive STree where
  | mk (kindId startRow startCol endRow endCol : Nat) (children : List STree)

/-- Child list of a node. -/
def STree.children : STree → List STree
  | .mk _ _ _ _ _ ch => ch

/-- `node.child_count() == 0`. -/
def isLeaf (t : STree) : Bool :=
  t.children.isEmpty

mutual
/-- `editor.rs::expand_node`: push the node itself when it has no
children, then recurse into the children in order, appending their
results. -/
def expand_node : STree → List STree
  | .mk k sr sc er ec ch =>
    (if ch.isEmpty then [STree.mk k sr sc er ec ch] else []) ++ expandList ch

/-- The `for n in node.children()` loop of `expand_node`. -/
def expandList : List STree → List STree
  | [] => []
  | t :: ts => expand_node t ++ expandList ts
end

/-- `main.rs::expand_nodes` is textually identical to
`editor.rs::expand_node`. -/
def expand_nodes : STree → List STree :=
  expand_node

mutual
/-- Depth-first, children-before-siblings traversal of a tree (the node,
then the traversals of its children in order). -/
def preorder : STree → List STree
  | .mk k sr sc er ec ch => STree.mk k sr sc er ec ch :: preorderList ch

/-- Preorder traversal of a forest. -/
def preorderList : List STree → List STree
  | [] => []
  | t :: ts => preorder t ++ preorderList ts
end

/-- Start row of a node (`node.start_position().row`). -/
def STree.startRow : STree → Nat
  | .mk _ sr _ _ _ _ => sr

/-- Start column of a node (`node.start_position().column`). -/
def STree.startCol : STree → Nat
  | .mk _ _ sc _ _ _ => sc

/-- End column of a node (`node.end_position().column`). -/
def STree.endCol : STree → Nat
  | .mk _ _ _ _ ec _ => ec

/-- Kind id of a node (`node.kind_id()`). -/
def STree.kindId : STree → Nat
  | .mk k _ _ _ _ _ => k

/-- One emitted draw instruction: an untagged (white/default) text span or
a span colored by a palette index. -/
inductive Span where
  | plain (s : List Char)
  | colored (colorIdx : Nat) (s : List Char)
  deriving DecidableEq, Repr

/-- The highlight loop of `main.rs::update_display`: walk the leaf nodes
keeping `prev_end`; emit the intervening slice untagged when the node
starts past `prev_end`, then the node's own slice colored by
`kind_id % 12`.  `end_position().column - start_position().column` is an
unchecked `usize` subtraction. -/
def renderNodes (text : List Char) : List STree → Nat → Option (List Span)
  | [], _ => some []
  | nd :: rest, prevEnd => do
    let index := get_index_from_pos text (nd.startCol, nd.startRow)
    let gap ←
      if prevEnd < index then do
        let g ← ropeSlice text prevEnd index
        some [Span.plain g]
      else
        some []
    let diff ← checkedSub nd.endCol nd.startCol
    let seg ← ropeSlice text index (index + diff)
    let tail ← renderNodes text rest (index + diff)
    some (gap ++ Span.colored (nd.kindId % 12) seg :: tail)

/-- The span output of `main.rs::update_display`: the parse result is
`tree = parser.parse(...)` (an `Option`); when it is `none` the
`if let Some(tree)` block is skipped entirely and no text is emitted; when
it is `some`, the leaf nodes are extracted with `expand_nodes` and walked
by the highlight loop starting from `prev_end = 0`. -/
def update_display_spans (text : List Char) (tree : Option STree) : Option (List Span) :=
  match tree with
  | none => some []
  | some t => renderNodes text (expand_nodes t) 0

/-- The highlight loop of `editor.rs::redraw`: like `renderNodes` but
nodes starting before the scroll row or after the last visible row
(`scroll + size().1 - 1`, checked subtraction) are skipped, and offsets
use `get_rope_index`. -/
def redrawNodes (text : List Char) (scroll height : Nat) : List STree → Nat → Option (List Span)
  | [], _ => some []
  | nd :: rest, lastPos =>
    if nd.startRow < scroll then redrawNodes text scroll height rest lastPos
    else do
      let lim ← checkedSub (scroll + height) 1
      if lim < nd.startRow then redrawNodes text scroll height rest lastPos
      else do
        let index := get_rope_index text (nd.startCol, nd.startRow)
        let gap ←
          if lastPos < index then do
            let g ← ropeSlice text lastPos index
            some [Span.plain g]
          else
            some []
        let diff ← checkedSub nd.endCol nd.startCol
        let seg ← ropeSlice text index (index + diff)
        let tail ← redrawNodes text scroll height rest (index + diff)
        some (gap ++ Span.colored (nd.kindId % 12) seg :: tail)

/-- The span output of `editor.rs::redraw`: the parse result is unwrapped
(`parser.parse(...).unwrap()`), so a parse failure panics (`none`);
otherwise the leaves are walked starting from
`last_pos = get_rope_index((0, scroll))`. -/
def redrawE (text : List Char) (scroll height : Nat) (tree : Option STree) : Option (List Span) :=
  match tree with
  | none => none
  | some t => redrawNodes text scroll height (expand_node t) (get_rope_index text (0, scroll))

-- ------------------------------------------------------------------
-- Lemmas about the coordinate translation loops (claim C1)
-- ------------------------------------------------------------------

theorem giLoop_in (ls : List (List Char)) :
    ∀ (i d col : Nat), d < ls.length →
      giLoop (col, i + d) i ls = lenSum (ls.take d) + col := by
  induction ls with
  | nil => intro i d col h; simp at h
  | cons line rest ih =>
    intro i d col h
    cases d with
    | zero => simp [giLoop, lenSum]
    | succ e =>
      have hne : ¬ i = i + (e + 1) := by omega
      have : i + (e + 1) = (i + 1) + e := by omega
      simp only [giLoop, hne, if_false, this]
      rw [ih (i + 1) e col (by simpa using Nat.lt_of_succ_lt_succ h)]
      simp [lenSum, Nat.add_assoc]

theorem grLoop_in (ls : List (List Char)) :
    ∀ (i d col : Nat), d < ls.length →
      grLoop (col, i + d) i ls = lenSum (ls.take d) + col := by
  induction ls with
  | nil => intro i d col h; simp at h
  | cons line rest ih =>
    intro i d col h
    cases d with
    | zero => simp [grLoop, lenSum]
    | succ e =>
      have hne : ¬ i + (e + 1) ≤ i := by omega
      have : i + (e + 1) = (i + 1) + e := by omega
      simp only [grLoop, hne, if_false, this]
      rw [ih (i + 1) e col (by simpa using Nat.lt_of_succ_lt_succ h)]
      simp [lenSum, Nat.add_assoc]

theorem giLoop_out (ls : List (List Char)) :
    ∀ (i col row : Nat), i + ls.length ≤ row →
      giLoop (col, row) i ls = lenSum ls := by
  induction ls with
  | nil => intro i col row _; simp [giLoop, lenSum]
  | cons line rest ih =>
    intro i col row h
    have hne : ¬ i = row := by simp at h; omega
    simp only [giLoop, hne, if_false]
    rw [ih (i + 1) col row (by simp at h ⊢; omega)]
    simp [lenSum]

theorem toLines_ne_nil (s : List Char) : toLines s ≠ [] := by
  cases s with
  | nil => simp [toLines]
  | cons c t =>
    simp only [toLines]
    split
    · simp
    · split <;> simp

/-- C1: for every in-bounds absolute position `(column, row)` both
coordinate translations (`editor.rs::get_rope_index` and
`main.rs::get_index_from_pos`) return the sum of the char lengths of the
lines strictly before the row plus the column, and both short-circuit at
the target row: running them on just the first `row + 1` lines gives the
same result, so no line after the target row is visited. -/
theorem c1_coordinate_translation (s : List Char) (col row : Nat)
    (h : row < (toLines s).length) :
    get_rope_index s (col, row) = lenSum ((toLines s).take row) + col
    ∧ get_index_from_pos s (col, row) = lenSum ((toLines s).take row) + col
    ∧ get_rope_index s (col, row) = grLoop (col, row) 0 ((toLines s).take (row + 1))
    ∧ get_index_from_pos s (col, row) = giLoop (col, row) 0 ((toLines s).take (row + 1)) := by
  have hg : get_rope_index s (col, row) = lenSum ((toLines s).take row) + col := by
    have := grLoop_in (toLines s) 0 row col h
    simpa [get_rope_index] using this
  have hi : get_index_from_pos s (col, row) = lenSum ((toLines s).take row) + col := by
    have := giLoop_in (toLines s) 0 row col h
    simpa [get_index_from_pos] using this
  have hlen : row < ((toLines s).take (row + 1)).length := by
    simp [List.length_take]
    omega
  have htt : ((toLines s).take (row + 1)).take row = (toLines s).take row := by
    rw [List.take_take]
    congr 1
    omega
  have hg2 := grLoop_in ((toLines s).take (row + 1)) 0 row col hlen
  have hi2 := giLoop_in ((toLines s).take (row + 1)) 0 row col hlen
  rw [Nat.zero_add] at hg2 hi2
  rw [htt] at hg2 hi2
  exact ⟨hg, hi, by rw [hg, hg2], by rw [hi, hi2]⟩

/-- Witness for C1 at the buffer `"ab\ncd"` and position column 1, row 1:
the offset is `3 + 1 = 4`. -/
theorem c1_coordinate_translation_witness :
    get_rope_index ['a', 'b', '\n', 'c', 'd'] (1, 1) = 4
    ∧ get_index_from_pos ['a', 'b', '\n', 'c', 'd'] (1, 1) = 4 :=
  ⟨((c1_coordinate_translation ['a', 'b', '\n', 'c', 'd'] 1 1 (by decide)).1).trans (by decide),
   ((c1_coordinate_translation ['a', 'b', '\n', 'c', 'd'] 1 1 (by decide)).2.1).trans (by decide)⟩

-- ------------------------------------------------------------------
-- The load normalization in closed form (claims C2 and C4)
-- ------------------------------------------------------------------

theorem nlIndicesFrom_add (s : List Char) :
    ∀ i j : Nat, nlIndicesFrom s (i + j) = (nlIndicesFrom s i).map (· + j) := by
  induction s with
  | nil => intro i j; simp [nlIndicesFrom]
  | cons c t ih =>
    intro i j
    by_cases hc : c = '\n'
    · have h1 : i + j + 1 = (i + 1) + j := by omega
      simp [nlIndicesFrom, hc, h1, ih (i + 1) j]
    · have h1 : i + j + 1 = (i + 1) + j := by omega
      simp [nlIndicesFrom, hc, h1, ih (i + 1) j]

theorem nlIndices_cons_nl (t : List Char) :
    nlIndices ('\n' :: t) = 0 :: (nlIndices t).map (· + 1) := by
  have h := nlIndicesFrom_add t 0 1
  simp only [Nat.zero_add] at h
  simp [nlIndices, nlIndicesFrom, h]

theorem nlIndices_cons_other (c : Char) (t : List Char) (hc : c ≠ '\n') :
    nlIndices (c :: t) = (nlIndices t).map (· + 1) := by
  have h := nlIndicesFrom_add t 0 1
  simp only [Nat.zero_add] at h
  simp [nlIndices, nlIndicesFrom, hc, h]

theorem insertAt_zero (s : List Char) (c : Char) : insertAt s 0 c = c :: s := by
  simp [insertAt]

theorem insertAt_succ (a : Char) (s : List Char) (n : Nat) (c : Char) :
    insertAt (a :: s) (n + 1) c = a :: insertAt s n c := by
  simp [insertAt]

theorem insertLoop_cons_pos :
    ∀ (idxs : List Nat) (s : List Char) (c : Char) (k : Nat),
      (∀ i ∈ idxs, 1 ≤ i) →
      insertLoop (c :: s) idxs k = c :: insertLoop s (idxs.map (· - 1)) k := by
  intro idxs
  induction idxs with
  | nil => intro s c k _; simp [insertLoop]
  | cons i rest ih =>
    intro s c k hpos
    have hi : 1 ≤ i := hpos i (by simp)
    have hik : i + k = (i - 1 + k) + 1 := by omega
    simp only [insertLoop, List.map_cons, hik, insertAt_succ]
    exact ih (insertAt s (i - 1 + k) '\r') c (k + 1) (fun j hj => hpos j (by simp [hj]))

theorem insertLoop_cons_k :
    ∀ (idxs : List Nat) (s : List Char) (c : Char) (k : Nat), 1 ≤ k →
      insertLoop (c :: s) idxs k = c :: insertLoop s idxs (k - 1) := by
  intro idxs
  induction idxs with
  | nil => intro s c k _; simp [insertLoop]
  | cons i rest ih =>
    intro s c k hk
    have hik : i + k = (i + (k - 1)) + 1 := by omega
    have hk1 : (k + 1) - 1 = (k - 1) + 1 := by omega
    simp only [insertLoop, hik, insertAt_succ]
    rw [ih (insertAt s (i + (k - 1)) '\r') c (k + 1) (by omega), hk1]

theorem load_eq_normalizeNL (s : List Char) : load s = normalizeNL s := by
  induction s with
  | nil => simp [load, nlIndices, nlIndicesFrom, insertLoop, normalizeNL]
  | cons c t ih =>
    by_cases hc : c = '\n'
    · subst hc
      have hmap : ∀ x ∈ (nlIndices t).map (· + 1), 1 ≤ x := by
        intro x hx
        simp at hx
        omega
      calc load ('\n' :: t)
          = insertLoop ('\n' :: t) (0 :: (nlIndices t).map (· + 1)) 0 := by
            rw [load, nlIndices_cons_nl]
        _ = insertLoop ('\r' :: '\n' :: t) ((nlIndices t).map (· + 1)) 1 := by
            simp [insertLoop, insertAt_zero]
        _ = '\r' :: insertLoop ('\n' :: t) (nlIndices t) 1 := by
            rw [insertLoop_cons_pos _ _ _ _ hmap, List.map_map]
            have hid : ((fun x => x - 1) ∘ fun x : Nat => x + 1) = id := by
              funext x
              simp
            rw [hid, List.map_id]
        _ = '\r' :: '\n' :: insertLoop t (nlIndices t) 0 := by
            rw [insertLoop_cons_k _ _ _ 1 (by omega)]
        _ = '\r' :: '\n' :: normalizeNL t := by rw [← load, ih]
        _ = normalizeNL ('\n' :: t) := by simp [normalizeNL]
    · have hmap : ∀ x ∈ (nlIndices t).map (· + 1), 1 ≤ x := by
        intro x hx
        simp at hx
        omega
      calc load (c :: t)
          = insertLoop (c :: t) ((nlIndices t).map (· + 1)) 0 := by
            rw [load, nlIndices_cons_other c t hc]
        _ = c :: insertLoop t (nlIndices t) 0 := by
            rw [insertLoop_cons_pos _ _ _ _ hmap, List.map_map]
            have hid : ((fun x => x - 1) ∘ fun x : Nat => x + 1) = id := by
              funext x
              simp
            rw [hid, List.map_id]
        _ = c :: normalizeNL t := by rw [← load, ih]
        _ = normalizeNL (c :: t) := by simp [normalizeNL, hc]

/-- C2: loading a byte sequence without carriage returns and saving the
resulting buffer reproduces the input exactly. -/
theorem c2_save_load_roundtrip (s : List Char) (h : '\r' ∉ s) :
    save (load s) = s := by
  rw [load_eq_normalizeNL]
  induction s with
  | nil => simp [normalizeNL, save]
  | cons c t ih =>
    have hc : c ≠ '\r' := by
      intro hcr
      exact h (hcr ▸ List.mem_cons_self c t)
    have ht : '\r' ∉ t := fun hm => h (List.mem_cons_of_mem c hm)
    by_cases hn : c = '\n'
    · subst hn
      simp [normalizeNL, save, List.filter] at ih ⊢
      exact ih ht
    · simp [normalizeNL, save, List.filter, hn, hc] at ih ⊢
      exact ih ht

/-- Witness for C2 at the LF-terminated byte sequence `"ab\ncd\n"`. -/
theorem c2_save_load_roundtrip_witness :
    save (load ['a', 'b', '\n', 'c', 'd', '\n']) = ['a', 'b', '\n', 'c', 'd', '\n'] :=
  c2_save_load_roundtrip ['a', 'b', '\n', 'c', 'd', '\n'] (by decide)

-- ------------------------------------------------------------------
-- Claim C7: what save actually does
-- ------------------------------------------------------------------

/-- C7 counterexample: on the buffer `"a\rb"` (which the program reaches
by opening a file containing a lone carriage return: `load` keeps it),
`save` drops the carriage return although it is not part of a CR LF
terminator, while the transformation claimed by the spec (reduce each
CR LF to LF and do nothing else, `stripCRLF`) keeps it.  So save does not
equal the claimed transformation on every buffer state. -/
theorem c7_counterexample :
    load ['a', '\r', 'b'] = ['a', '\r', 'b']
    ∧ save ['a', '\r', 'b'] = ['a', 'b']
    ∧ stripCRLF ['a', '\r', 'b'] = ['a', '\r', 'b']
    ∧ save ['a', '\r', 'b'] ≠ stripCRLF ['a', '\r', 'b'] := by
  refine ⟨by decide, by decide, by decide, by decide⟩

theorem save_eq_stripCRLF (s : List Char) : crPaired s = true → save s = stripCRLF s := by
  induction s using crPaired.induct with
  | case1 => intro _; simp [save, stripCRLF]
  | case2 => intro h; simp [crPaired] at h
  | case3 t2 ih =>
    intro h
    simp only [crPaired, if_pos rfl] at h
    have := ih h
    simp [save, stripCRLF, List.filter] at this ⊢
    exact this
  | case4 c2 t2 hc2 =>
    intro h
    simp [crPaired, hc2] at h
  | case5 c2 t2 hc2 ih =>
    intro h
    rw [crPaired.eq_def] at h
    simp [hc2] at h
    have hs := ih h
    simp only [save] at hs ⊢
    rw [stripCRLF.eq_def]
    simp only [ne_eq, decide_not] at hs
    simp [hc2, List.filter_cons, hs]

/-- C7 amended: `save` removes every carriage-return character from the
buffer; on buffers in which every carriage return is immediately followed
by a line feed (in particular every buffer whose carriage returns all come
from the two-character terminators) this coincides with reducing each
CR LF terminator to a single line feed with no other transformation. -/
theorem c7_save_strips_all_crs (s : List Char) (h : crPaired s = true) :
    save s = s.filter (fun c => c ≠ '\r') ∧ save s = stripCRLF s :=
  ⟨rfl, save_eq_stripCRLF s h⟩

/-- Witness for C7 at the buffer `"x\r\ny"`. -/
theorem c7_save_strips_all_crs_witness :
    save ['x', '\r', '\n', 'y'] = stripCRLF ['x', '\r', '\n', 'y'] :=
  (c7_save_strips_all_crs ['x', '\r', '\n', 'y'] (by decide)).2

-- ------------------------------------------------------------------
-- Structure of the line decomposition
-- ------------------------------------------------------------------

theorem toLines_flatten (s : List Char) : (toLines s).flatten = s := by
  induction s with
  | nil => simp [toLines]
  | cons c t ih =>
    by_cases hc : c = '\n'
    · simp [toLines, hc, ih]
    · cases hL : toLines t with
      | nil => exact absurd hL (toLines_ne_nil t)
      | cons l ls =>
        rw [hL] at ih
        simp [toLines, hc, hL]
        simpa using ih

theorem lenSum_toLines (s : List Char) : lenSum (toLines s) = s.length := by
  have := toLines_flatten s
  calc lenSum (toLines s) = (toLines s).flatten.length := (List.length_flatten _).symm
    _ = s.length := by rw [this]

theorem linesWF_toLines (s : List Char) : linesWF (toLines s) := by
  induction s with
  | nil => simp [toLines, linesWF]
  | cons c t ih =>
    by_cases hc : c = '\n'
    · cases hL : toLines t with
      | nil => exact absurd hL (toLines_ne_nil t)
      | cons l ls =>
        rw [hL] at ih
        simp only [toLines, hc, if_pos rfl, hL]
        exact ⟨⟨[], by simp⟩, ih⟩
    · cases hL : toLines t with
      | nil => exact absurd hL (toLines_ne_nil t)
      | cons l ls =>
        rw [hL] at ih
        simp only [toLines, hc, if_neg hc, hL]
        cases ls with
        | nil =>
          simp only [linesWF] at ih ⊢
          simp [ih]
          exact fun h => hc h.symm
        | cons l2 ls2 =>
          obtain ⟨⟨m, hm, hmn⟩, hrest⟩ := ih
          refine ⟨⟨c :: m, by simp [hm], ?_⟩, hrest⟩
          simp [hmn]
          exact fun h => hc h.symm

theorem linesWF_mid (L : List (List Char)) :
    ∀ i, linesWF L → i + 1 < L.length →
      ∃ m, L[i]? = some (m ++ ['\n']) ∧ '\n' ∉ m := by
  induction L with
  | nil => intro i _ h; simp at h
  | cons l ls ih =>
    intro i hwf hi
    cases ls with
    | nil => simp at hi
    | cons l2 ls2 =>
      obtain ⟨⟨m, hm, hmn⟩, hrest⟩ := hwf
      cases i with
      | zero => exact ⟨m, by simp [hm], hmn⟩
      | succ j =>
        obtain ⟨m2, hm2, hm2n⟩ := ih j hrest (by simp at hi ⊢; omega)
        exact ⟨m2, by simpa using hm2, hm2n⟩

theorem linesWF_last (L : List (List Char)) :
    ∀ i, linesWF L → i + 1 = L.length →
      ∀ l, L[i]? = some l → '\n' ∉ l := by
  induction L with
  | nil => intro i _ h; simp at h
  | cons l ls ih =>
    intro i hwf hi l0 hl0
    cases ls with
    | nil =>
      have : i = 0 := by simp at hi; omega
      subst this
      simp at hl0
      subst hl0
      exact hwf
    | cons l2 ls2 =>
      obtain ⟨_, hrest⟩ := hwf
      cases i with
      | zero => simp at hi
      | succ j =>
        exact ih j hrest (by simp at hi ⊢; omega) l0 (by simpa using hl0)

theorem flatten_drop_lenSum (L : List (List Char)) :
    ∀ r, (L.flatten).drop (lenSum (L.take r)) = (L.drop r).flatten := by
  induction L with
  | nil => intro r; simp [lenSum]
  | cons l ls ih =>
    intro r
    cases r with
    | zero => simp [lenSum]
    | succ j =>
      simp only [List.take_succ_cons, lenSum, List.map_cons, List.sum_cons,
        List.flatten_cons, List.drop_succ_cons]
      rw [List.drop_append]
      exact ih j

theorem lenSum_take_succ (L : List (List Char)) (d : Nat) (l : List Char)
    (h : L[d]? = some l) :
    lenSum (L.take (d + 1)) = lenSum (L.take d) + l.length := by
  rw [List.take_succ, h]
  simp [lenSum]

theorem flatten_char_at (L : List (List Char)) (r c : Nat) (ln : List Char)
    (hr : L[r]? = some ln) (hc : c < ln.length) :
    (L.flatten)[lenSum (L.take r) + c]? = ln[c]? := by
  have hrlt : r < L.length := by
    by_contra hh
    push_neg at hh
    rw [List.getElem?_eq_none hh] at hr
    simp at hr
  have hline : L[r] = ln := by
    rw [List.getElem?_eq_getElem hrlt] at hr
    exact Option.some.inj hr
  have h2 : L.drop r = ln :: L.drop (r + 1) := by
    rw [List.drop_eq_getElem_cons hrlt, hline]
  calc (L.flatten)[lenSum (L.take r) + c]?
      = ((L.flatten).drop (lenSum (L.take r)))[c]? := (List.getElem?_drop _ _ _).symm
    _ = ((ln :: L.drop (r + 1)).flatten)[c]? := by rw [flatten_drop_lenSum L r, h2]
    _ = (ln ++ (L.drop (r + 1)).flatten)[c]? := by simp
    _ = ln[c]? := List.getElem?_append_left hc

theorem char_at (s : List Char) (r c : Nat) (ln : List Char)
    (hr : (toLines s)[r]? = some ln) (hc : c < ln.length) :
    s[lenSum ((toLines s).take r) + c]? = ln[c]? := by
  have h := flatten_char_at (toLines s) r c ln hr hc
  rwa [toLines_flatten s] at h

theorem drop_at (s : List Char) (r : Nat) :
    s.drop (lenSum ((toLines s).take r)) = ((toLines s).drop r).flatten := by
  have h := flatten_drop_lenSum (toLines s) r
  rwa [toLines_flatten s] at h

theorem get_index_in (s : List Char) (x r : Nat) (hr : r < (toLines s).length) :
    get_index_from_pos s (x, r) = lenSum ((toLines s).take r) + x := by
  have h := giLoop_in (toLines s) 0 r x hr
  simpa [get_index_from_pos] using h

theorem get_index_out (s : List Char) (x r : Nat) (hr : (toLines s).length ≤ r) :
    get_index_from_pos s (x, r) = s.length := by
  have h := giLoop_out (toLines s) 0 x r (by simpa using hr)
  rw [get_index_from_pos, h, lenSum_toLines]

theorem gclLoop_in (ls : List (List Char)) :
    ∀ (i d : Nat) (l : List Char), ls[d]? = some l →
      gclLoop (i + d) i ls = l.length - 2 := by
  induction ls with
  | nil => intro i d l h; simp at h
  | cons line rest ih =>
    intro i d l h
    cases d with
    | zero =>
      simp at h
      subst h
      simp [gclLoop]
    | succ e =>
      have hne : ¬ i = i + (e + 1) := by omega
      simp only [gclLoop, if_neg hne]
      have hsh : i + (e + 1) = (i + 1) + e := by omega
      rw [hsh]
      exact ih (i + 1) e l (by simpa using h)

theorem gclLoop_out (ls : List (List Char)) :
    ∀ (i row : Nat), i + ls.length ≤ row → gclLoop row i ls = 0 := by
  induction ls with
  | nil => intro i row _; simp [gclLoop]
  | cons line rest ih =>
    intro i row h
    simp only [List.length_cons] at h
    have hne : ¬ i = row := by omega
    simp only [gclLoop, hne, if_false]
    exact ih (i + 1) row (by omega)

-- ------------------------------------------------------------------
-- Preservation lemmas for the CR-LF invariant
-- ------------------------------------------------------------------

theorem noLFAfter_irrel (l : List Char) (p q : Option Char)
    (h : l.head? ≠ some '\n') : noLFAfter p l = noLFAfter q l := by
  cases l with
  | nil => rfl
  | cons c t =>
    have hc : c ≠ '\n' := by
      intro hcc
      exact h (by simp [hcc])
    simp [noLFAfter, hc]

theorem noLFAfter_insert1 (a : List Char) :
    ∀ (p : Option Char) (b : List Char) (c : Char),
      noLFAfter p (a ++ b) = true → c ≠ '\n' → b.head? ≠ some '\n' →
      noLFAfter p (a ++ c :: b) = true := by
  induction a with
  | nil =>
    intro p b c h hc hb
    simp only [List.nil_append] at h ⊢
    simp [noLFAfter, hc]
    rw [noLFAfter_irrel b (some c) p hb]
    exact h
  | cons z a2 ih =>
    intro p b c h hc hb
    simp only [List.cons_append, noLFAfter, Bool.and_eq_true] at h ⊢
    exact ⟨h.1, ih (some z) b c h.2 hc hb⟩

theorem noLFAfter_insertRN (a : List Char) :
    ∀ (p : Option Char) (b : List Char),
      noLFAfter p (a ++ b) = true → b.head? ≠ some '\n' →
      noLFAfter p (a ++ '\r' :: '\n' :: b) = true := by
  induction a with
  | nil =>
    intro p b h hb
    simp only [List.nil_append] at h ⊢
    simp [noLFAfter]
    rw [noLFAfter_irrel b (some '\n') p hb]
    exact h
  | cons z a2 ih =>
    intro p b h hb
    simp only [List.cons_append, noLFAfter, Bool.and_eq_true] at h ⊢
    exact ⟨h.1, ih (some z) b h.2 hb⟩

theorem noLFAfter_remove1 (a : List Char) :
    ∀ (p : Option Char) (x : Char) (b : List Char),
      noLFAfter p (a ++ x :: b) = true → b.head? ≠ some '\n' →
      noLFAfter p (a ++ b) = true := by
  induction a with
  | nil =>
    intro p x b h hb
    simp only [List.nil_append] at h ⊢
    simp only [noLFAfter, Bool.and_eq_true] at h
    rw [noLFAfter_irrel b p (some x) hb]
    exact h.2
  | cons z a2 ih =>
    intro p x b h hb
    simp only [List.cons_append, noLFAfter, Bool.and_eq_true] at h ⊢
    exact ⟨h.1, ih (some z) x b h.2 hb⟩

theorem noLFAfter_removeRN (a : List Char) :
    ∀ (p : Option Char) (b : List Char),
      noLFAfter p (a ++ '\r' :: '\n' :: b) = true →
      noLFAfter p (a ++ b) = true := by
  induction a with
  | nil =>
    intro p b h
    simp only [List.nil_append] at h ⊢
    simp only [noLFAfter, Bool.and_eq_true] at h
    have hnb : noLFAfter (some '\n') b = true := h.2.2
    have hb : b.head? ≠ some '\n' := by
      cases b with
      | nil => simp
      | cons y t =>
        simp only [noLFAfter, Bool.and_eq_true, Bool.or_eq_true] at hnb
        intro hyy
        simp only [List.head?_cons, Option.some.injEq] at hyy
        subst hyy
        rcases hnb.1 with h1 | h1
        · simp at h1
        · simp at h1
    rw [noLFAfter_irrel b p (some '\n') hb]
    exact hnb
  | cons z a2 ih =>
    intro p b h
    simp only [List.cons_append, noLFAfter, Bool.and_eq_true] at h ⊢
    exact ⟨h.1, ih (some z) b h.2⟩

theorem getElem?_lt (s : List Char) (i : Nat) (u : Char) (h : s[i]? = some u) :
    i < s.length := by
  by_contra hh
  push_neg at hh
  rw [List.getElem?_eq_none hh] at h
  simp at h

theorem split1 (s : List Char) (i : Nat) (u : Char) (h : s[i]? = some u) :
    s = s.take i ++ u :: s.drop (i + 1) := by
  have hlt := getElem?_lt s i u h
  have hu : s[i] = u := by
    rw [List.getElem?_eq_getElem hlt] at h
    exact Option.some.inj h
  conv_lhs => rw [← List.take_append_drop i s]
  rw [List.drop_eq_getElem_cons hlt, hu]

theorem split2 (s : List Char) (i : Nat) (u v : Char)
    (hu : s[i]? = some u) (hv : s[i + 1]? = some v) :
    s = s.take i ++ u :: v :: s.drop (i + 2) := by
  have hlt := getElem?_lt s i u hu
  have hlt2 := getElem?_lt s (i + 1) v hv
  have hue : s[i] = u := by
    rw [List.getElem?_eq_getElem hlt] at hu
    exact Option.some.inj hu
  have hve : s[i + 1] = v := by
    rw [List.getElem?_eq_getElem hlt2] at hv
    exact Option.some.inj hv
  conv_lhs => rw [← List.take_append_drop i s]
  rw [List.drop_eq_getElem_cons hlt, hue, List.drop_eq_getElem_cons hlt2, hve]

theorem crlfOK_head (s : List Char) (h : crlfOK s = true) : s[0]? ≠ some '\n' := by
  cases s with
  | nil => simp
  | cons c t =>
    simp only [crlfOK, noLFAfter, Bool.and_eq_true, Bool.or_eq_true] at h
    intro hc
    simp only [List.getElem?_cons_zero, Option.some.injEq] at hc
    subst hc
    rcases h.1 with h1 | h1
    · simp at h1
    · simp at h1

theorem noLF_pred (l : List Char) :
    ∀ (p : Option Char) (i : Nat), noLFAfter p l = true →
      l[i + 1]? = some '\n' → l[i]? = some '\r' := by
  induction l with
  | nil => intro p i _ h2; simp at h2
  | cons c t ih =>
    intro p i h h2
    simp only [noLFAfter, Bool.and_eq_true] at h
    cases i with
    | zero =>
      simp only [List.getElem?_cons_succ] at h2
      cases t with
      | nil => simp at h2
      | cons y t2 =>
        simp only [List.getElem?_cons_zero, Option.some.injEq] at h2
        subst h2
        have h3 := h.2
        simp only [noLFAfter, Bool.and_eq_true, Bool.or_eq_true] at h3
        rcases h3.1 with h1 | h1
        · simp at h1
        · simp only [decide_eq_true_eq, Option.some.injEq] at h1
          simp [h1]
    | succ j =>
      simp only [List.getElem?_cons_succ] at h2 ⊢
      exact ih (some c) j h.2 h2

theorem prev_nl (s : List Char) (r : Nat) (hr1 : 1 ≤ r)
    (hr : r < (toLines s).length) :
    1 ≤ lenSum ((toLines s).take r)
    ∧ s[lenSum ((toLines s).take r) - 1]? = some '\n' := by
  obtain ⟨m, hm, -⟩ :=
    linesWF_mid (toLines s) (r - 1) (linesWF_toLines s) (by omega)
  have hsum := lenSum_take_succ (toLines s) (r - 1) (m ++ ['\n']) hm
  have hr1e : r - 1 + 1 = r := by omega
  rw [hr1e] at hsum
  have hget := char_at s (r - 1) m.length (m ++ ['\n']) hm (by simp)
  have hnl : (m ++ ['\n'])[m.length]? = some '\n' := by
    rw [List.getElem?_append_right (le_refl m.length)]
    simp
  rw [hnl] at hget
  constructor
  · simp at hsum
    omega
  · have he : lenSum ((toLines s).take r) - 1
        = lenSum ((toLines s).take (r - 1)) + m.length := by
      simp at hsum
      omega
    rw [he]
    exact hget

theorem no_lf_at_line_start (s : List Char) (r : Nat) (hok : crlfOK s = true)
    (hr : r < (toLines s).length) :
    s[lenSum ((toLines s).take r)]? ≠ some '\n' := by
  cases Nat.eq_zero_or_pos r with
  | inl h0 =>
    subst h0
    simpa [lenSum] using crlfOK_head s hok
  | inr hpos =>
    obtain ⟨hge, hnl⟩ := prev_nl s r hpos hr
    intro hc
    have he : lenSum ((toLines s).take r) = (lenSum ((toLines s).take r) - 1) + 1 := by
      omega
    rw [he] at hc
    have := noLF_pred s none (lenSum ((toLines s).take r) - 1) hok hc
    rw [hnl] at this
    simp at this

theorem before_row (s : List Char) (r : Nat) (hok : crlfOK s = true)
    (hr1 : 1 ≤ r) (hr : r < (toLines s).length) :
    2 ≤ lenSum ((toLines s).take r)
    ∧ s[lenSum ((toLines s).take r) - 1]? = some '\n'
    ∧ s[lenSum ((toLines s).take r) - 2]? = some '\r' := by
  obtain ⟨hge, hnl⟩ := prev_nl s r hr1 hr
  have h2 : 2 ≤ lenSum ((toLines s).take r) := by
    rcases Nat.lt_or_ge (lenSum ((toLines s).take r)) 2 with hlt | hge2
    · exfalso
      have he : lenSum ((toLines s).take r) = 1 := by omega
      rw [he] at hnl
      norm_num at hnl
      exact crlfOK_head s hok hnl
    · exact hge2
  refine ⟨h2, hnl, ?_⟩
  have he : lenSum ((toLines s).take r) - 1 = (lenSum ((toLines s).take r) - 2) + 1 := by
    omega
  rw [he] at hnl
  exact noLF_pred s none (lenSum ((toLines s).take r) - 2) hok hnl

theorem short_mid_line (s : List Char) (r : Nat) (ln : List Char)
    (hok : crlfOK s = true) (hr : r + 1 < (toLines s).length)
    (hln : (toLines s)[r]? = some ln) (hlen : ln.length ≤ 2) :
    ln = ['\r', '\n'] := by
  obtain ⟨m, hm, hmn⟩ := linesWF_mid (toLines s) r (linesWF_toLines s) hr
  rw [hln] at hm
  have hme : ln = m ++ ['\n'] := Option.some.inj hm
  match m, hme with
  | [], hme =>
    exfalso
    have hget := char_at s r 0 ln hln (by rw [hme]; simp)
    rw [Nat.add_zero] at hget
    have : s[lenSum ((toLines s).take r)]? = some '\n' := by
      rw [hget, hme]
      simp
    exact no_lf_at_line_start s r hok (by omega) this
  | [u], hme =>
    have hget1 := char_at s r 1 ln hln (by rw [hme]; simp)
    have hget0 := char_at s r 0 ln hln (by rw [hme]; simp)
    rw [Nat.add_zero] at hget0
    have hnl1 : s[lenSum ((toLines s).take r) + 1]? = some '\n' := by
      rw [hget1, hme]
      simp
    have hcr := noLF_pred s none (lenSum ((toLines s).take r)) hok hnl1
    rw [hget0, hme] at hcr
    simp at hcr
    rw [hme, hcr]
    simp
  | u :: w :: m2, hme =>
    exfalso
    rw [hme] at hlen
    simp at hlen

theorem char_at_cursor (s : List Char) (x r : Nat) (hok : crlfOK s = true)
    (hx : x ≤ gclLoop r 0 (toLines s)) :
    s[get_index_from_pos s (x, r)]? ≠ some '\n' := by
  by_cases hr : r < (toLines s).length
  · obtain ⟨ln, hlnq⟩ : ∃ ln, (toLines s)[r]? = some ln :=
      ⟨_, List.getElem?_eq_getElem hr⟩
    have hgeq : (toLines s)[r] = ln := by
      rw [List.getElem?_eq_getElem hr] at hlnq
      exact Option.some.inj hlnq
    have hgcl : gclLoop r 0 (toLines s) = ln.length - 2 := by
      have h := gclLoop_in (toLines s) 0 r ln hlnq
      simpa using h
    rw [hgcl] at hx
    have hidx : get_index_from_pos s (x, r) = lenSum ((toLines s).take r) + x :=
      get_index_in s x r hr
    by_cases hlen : ln.length = 0
    · have hx0 : x = 0 := by omega
      have hln_nil : ln = [] := List.length_eq_zero.mp hlen
      have hdrop : s.drop (lenSum ((toLines s).take r)) = [] := by
        have hd := drop_at s r
        rw [List.drop_eq_getElem_cons hr, hgeq] at hd
        have hr1 : (toLines s).length ≤ r + 1 := by
          by_contra hne
          push_neg at hne
          obtain ⟨m, hm, -⟩ := linesWF_mid (toLines s) r (linesWF_toLines s) hne
          rw [hlnq] at hm
          have hmm := Option.some.inj hm
          rw [hln_nil] at hmm
          exact absurd hmm.symm (by simp)
        rw [List.drop_eq_nil_of_le hr1] at hd
        rw [hd, hln_nil]
        simp
      have hlenle : s.length ≤ lenSum ((toLines s).take r) := by
        have hl := congrArg List.length hdrop
        simp [List.length_drop] at hl
        omega
      rw [hidx, hx0, Nat.add_zero, List.getElem?_eq_none hlenle]
      simp
    · have hxlt : x < ln.length := by omega
      have hchar := char_at s r x ln hlnq hxlt
      rw [hidx, hchar]
      by_cases hlast : r + 1 < (toLines s).length
      · obtain ⟨m, hm, hmn⟩ := linesWF_mid (toLines s) r (linesWF_toLines s) hlast
        rw [hlnq] at hm
        have hme : ln = m ++ ['\n'] := Option.some.inj hm
        by_cases hxm : x < m.length
        · rw [hme, List.getElem?_append_left hxm]
          intro hc
          exact hmn (List.getElem?_mem hc)
        · intro hc
          have hm0 : m.length = 0 := by
            rw [hme] at hx
            simp at hx
            omega
          have hmnil : m = [] := List.length_eq_zero.mp hm0
          have hx0 : x = 0 := by
            rw [hme] at hxlt
            simp [hm0] at hxlt
            omega
          apply no_lf_at_line_start s r hok hr
          calc s[lenSum ((toLines s).take r)]?
              = s[lenSum ((toLines s).take r) + x]? := by rw [hx0, Nat.add_zero]
            _ = ln[x]? := hchar
            _ = some '\n' := by rw [hme, hmnil, hx0]; simp
      · have hlast_eq : r + 1 = (toLines s).length := by omega
        have hnin := linesWF_last (toLines s) r (linesWF_toLines s) hlast_eq ln hlnq
        intro hc
        exact hnin (List.getElem?_mem hc)
  · push_neg at hr
    rw [get_index_out s x r hr]
    rw [List.getElem?_eq_none (le_refl s.length)]
    simp

theorem acm_text (m : CursorMovement) (s t : MainState)
    (h : attempt_cursor_move m s = some t) : t.text = s.text := by
  cases m with
  | up =>
    simp only [attempt_cursor_move, Option.some.injEq] at h
    rw [← h]
  | left =>
    simp only [attempt_cursor_move, Option.some.injEq] at h
    rw [← h]
  | right =>
    simp only [attempt_cursor_move] at h
    split at h <;> (simp only [Option.some.injEq] at h; rw [← h])
  | down =>
    simp only [attempt_cursor_move, checkedSub] at h
    split at h
    · rw [Option.bind_eq_bind, Option.some_bind] at h
      split at h <;> (simp only [Option.some.injEq] at h; rw [← h])
    · simp at h

theorem acm_up_eq (s : MainState) :
    attempt_cursor_move .up s = some { s with cursorY := s.cursorY - 1 } := rfl

theorem applyKey_preserves_crlf (e : InEvent) (s t : MainState)
    (hok : crlfOK s.text = true)
    (hw : s.cursorX ≤ s.width - 1)
    (hh : s.cursorY ≤ s.height - 1)
    (hx : s.cursorX ≤ get_current_line_length s)
    (hch : ∀ c ctrl, e = InEvent.keyPress (KeyCode.char c) ctrl → c ≠ '\n')
    (h : applyKey e s = some t) :
    crlfOK t.text = true := by
  have hterm : termPos s = (s.cursorX, s.cursorY) := by
    unfold termPos
    rw [Nat.min_eq_left hw, Nat.min_eq_left hh]
  have hhead : (s.text.drop (get_index_from_pos s.text (s.cursorX, s.cursorY))).head?
      ≠ some '\n' := by
    rw [List.head?_drop]
    exact char_at_cursor s.text s.cursorX s.cursorY hok hx
  cases e with
  | nonPress =>
    simp only [applyKey, Option.some.injEq] at h
    rw [← h]
    exact hok
  | keyPress code ctrl =>
    cases code with
    | esc =>
      simp only [applyKey, Option.some.injEq] at h
      rw [← h]
      exact hok
    | other =>
      simp only [applyKey, Option.some.injEq] at h
      rw [← h]
      exact hok
    | up =>
      simp only [applyKey] at h
      rw [acm_text .up s t h]
      exact hok
    | down =>
      simp only [applyKey] at h
      rw [acm_text .down s t h]
      exact hok
    | left =>
      simp only [applyKey] at h
      rw [acm_text .left s t h]
      exact hok
    | right =>
      simp only [applyKey] at h
      rw [acm_text .right s t h]
      exact hok
    | enter =>
      simp only [applyKey] at h
      rw [hterm] at h
      simp only [ropeInsert] at h
      split at h
      case isTrue hle =>
        rw [Option.bind_eq_bind, Option.some_bind] at h
        simp only [addU16] at h
        split at h
        case isTrue hyb =>
          rw [Option.bind_eq_bind, Option.some_bind] at h
          simp only [Option.some.injEq] at h
          rw [← h]
          show crlfOK (s.text.take (get_index_from_pos s.text (s.cursorX, s.cursorY))
            ++ ['\r', '\n'] ++ s.text.drop (get_index_from_pos s.text (s.cursorX, s.cursorY)))
            = true
          have hre : s.text.take (get_index_from_pos s.text (s.cursorX, s.cursorY))
              ++ ['\r', '\n'] ++ s.text.drop (get_index_from_pos s.text (s.cursorX, s.cursorY))
              = s.text.take (get_index_from_pos s.text (s.cursorX, s.cursorY))
              ++ '\r' :: '\n' :: s.text.drop (get_index_from_pos s.text (s.cursorX, s.cursorY)) := by
            simp
          rw [hre]
          exact noLFAfter_insertRN _ none _
            (by rw [List.take_append_drop]; exact hok) hhead
        case isFalse => simp at h
      case isFalse => simp at h
    | char c =>
      simp only [applyKey] at h
      split at h
      case isTrue => simp only [Option.some.injEq] at h; rw [← h]; exact hok
      case isFalse =>
        rw [hterm] at h
        simp only [ropeInsert] at h
        split at h
        case isTrue hle =>
          rw [Option.bind_eq_bind, Option.some_bind] at h
          simp only [addU16] at h
          split at h
          case isTrue =>
            rw [Option.bind_eq_bind, Option.some_bind] at h
            simp only [Option.some.injEq] at h
            rw [← h]
            show crlfOK (s.text.take (get_index_from_pos s.text (s.cursorX, s.cursorY))
              ++ [c] ++ s.text.drop (get_index_from_pos s.text (s.cursorX, s.cursorY)))
              = true
            have hre : s.text.take (get_index_from_pos s.text (s.cursorX, s.cursorY))
                ++ [c] ++ s.text.drop (get_index_from_pos s.text (s.cursorX, s.cursorY))
                = s.text.take (get_index_from_pos s.text (s.cursorX, s.cursorY))
                ++ c :: s.text.drop (get_index_from_pos s.text (s.cursorX, s.cursorY)) := by
              simp
            rw [hre]
            exact noLFAfter_insert1 _ none _ c
              (by rw [List.take_append_drop]; exact hok) (hch c ctrl rfl) hhead
          case isFalse => simp at h
        case isFalse => simp at h
    | backspace =>
      simp only [applyKey] at h
      rw [hterm] at h
      by_cases h00 : (s.cursorX, s.cursorY) = (0, 0)
      · rw [if_pos h00] at h
        simp only [Option.some.injEq] at h
        rw [← h]
        exact hok
      · rw [if_neg h00] at h
        by_cases hx0 : 0 < s.cursorX
        · -- Backspace case 1: remove the char before the cursor
          rw [if_pos hx0] at h
          simp only [checkedSub] at h
          split at h
          next h1 =>
            rw [Option.bind_eq_bind, Option.some_bind] at h
            simp only [ropeRemove] at h
            split at h
            next hrem =>
              rw [Option.bind_eq_bind, Option.some_bind] at h
              rw [acm_text .left _ t h]
              obtain ⟨u, hu⟩ :
                  ∃ u, s.text[get_index_from_pos s.text (s.cursorX, s.cursorY) - 1]?
                    = some u :=
                ⟨_, List.getElem?_eq_getElem (by omega)⟩
              have hsplit := split1 s.text
                (get_index_from_pos s.text (s.cursorX, s.cursorY) - 1) u hu
              rw [(show get_index_from_pos s.text (s.cursorX, s.cursorY) - 1 + 1
                = get_index_from_pos s.text (s.cursorX, s.cursorY) by omega)] at hsplit
              exact noLFAfter_remove1 _ none u _ (by rw [← hsplit]; exact hok) hhead
            next => simp at h
          next => simp at h
        · have hxzero : s.cursorX = 0 := by omega
          have hyne : s.cursorY ≠ 0 := by
            intro hy
            exact h00 (by rw [hxzero, hy])
          rw [if_neg hx0] at h
          by_cases hg : get_current_line_length s = 0
          · -- Backspace case 2: remove the two chars at the line start
            rw [if_pos hg] at h
            simp only [ropeRemove] at h
            split at h
            next hrem =>
              rw [Option.bind_eq_bind, Option.some_bind, acm_up_eq,
                Option.bind_eq_bind, Option.some_bind] at h
              simp only [Option.some.injEq] at h
              rw [← h]
              by_cases hr : s.cursorY < (toLines s.text).length
              · obtain ⟨ln, hlnq⟩ : ∃ ln, (toLines s.text)[s.cursorY]? = some ln :=
                  ⟨_, List.getElem?_eq_getElem hr⟩
                have hgeq : (toLines s.text)[s.cursorY] = ln := by
                  rw [List.getElem?_eq_getElem hr] at hlnq
                  exact Option.some.inj hlnq
                have hgcl : gclLoop s.cursorY 0 (toLines s.text) = ln.length - 2 := by
                  simpa using gclLoop_in (toLines s.text) 0 s.cursorY ln hlnq
                have hlen2 : ln.length ≤ 2 := by
                  have hz : ln.length - 2 = 0 := by rw [← hgcl]; exact hg
                  omega
                have hidx : get_index_from_pos s.text (s.cursorX, s.cursorY)
                    = lenSum ((toLines s.text).take s.cursorY) := by
                  rw [get_index_in s.text s.cursorX s.cursorY hr, hxzero, Nat.add_zero]
                have hdropidx : s.text.drop (get_index_from_pos s.text (s.cursorX, s.cursorY))
                    = ln ++ ((toLines s.text).drop (s.cursorY + 1)).flatten := by
                  rw [hidx, drop_at s.text s.cursorY, List.drop_eq_getElem_cons hr, hgeq]
                  simp
                by_cases hlast : s.cursorY + 1 < (toLines s.text).length
                · have hln_eq := short_mid_line s.text s.cursorY ln hok hlast hlnq hlen2
                  have hB : s.text.drop (get_index_from_pos s.text (s.cursorX, s.cursorY) + 2)
                      = ((toLines s.text).drop (s.cursorY + 1)).flatten := by
                    rw [← List.drop_drop, hdropidx, hln_eq]
                    simp
                  have hS : s.text
                      = s.text.take (get_index_from_pos s.text (s.cursorX, s.cursorY))
                      ++ '\r' :: '\n'
                      :: s.text.drop (get_index_from_pos s.text (s.cursorX, s.cursorY) + 2) := by
                    conv_lhs => rw [← List.take_append_drop
                      (get_index_from_pos s.text (s.cursorX, s.cursorY)) s.text]
                    rw [hdropidx, hln_eq, hB]
                    simp
                  exact noLFAfter_removeRN _ none _ (by rw [← hS]; exact hok)
                · have hlast_eq : s.cursorY + 1 = (toLines s.text).length := by omega
                  have hnin := linesWF_last (toLines s.text) s.cursorY
                    (linesWF_toLines s.text) hlast_eq ln hlnq
                  have hdropnil : (toLines s.text).drop (s.cursorY + 1) = [] :=
                    List.drop_eq_nil_of_le (by omega)
                  have hdropidx2 : s.text.drop (get_index_from_pos s.text (s.cursorX, s.cursorY))
                      = ln := by
                    rw [hdropidx, hdropnil]
                    simp
                  have hlen_s : s.text.length
                      = get_index_from_pos s.text (s.cursorX, s.cursorY) + ln.length := by
                    have hl := congrArg List.length hdropidx2
                    simp only [List.length_drop] at hl
                    omega
                  have hln2 : ln.length = 2 := by omega
                  obtain ⟨u, v, hln_uv⟩ : ∃ u v, ln = [u, v] := by
                    match ln, hln2 with
                    | [u, v], _ => exact ⟨u, v, rfl⟩
                  have hv_ne : v ≠ '\n' := by
                    rw [hln_uv] at hnin
                    simp at hnin
                    exact fun hv => hnin.2 hv.symm
                  have hdrop2 : s.text.drop (get_index_from_pos s.text (s.cursorX, s.cursorY) + 2)
                      = [] := by
                    rw [← List.drop_drop, hdropidx2, hln_uv]
                    rfl
                  have hS : s.text
                      = s.text.take (get_index_from_pos s.text (s.cursorX, s.cursorY))
                      ++ u :: [v] := by
                    conv_lhs => rw [← List.take_append_drop
                      (get_index_from_pos s.text (s.cursorX, s.cursorY)) s.text]
                    rw [hdropidx2, hln_uv]
                  have step1 := noLFAfter_remove1
                    (s.text.take (get_index_from_pos s.text (s.cursorX, s.cursorY))) none u [v]
                    (by rw [← hS]; exact hok) (by simp [hv_ne])
                  have step2 := noLFAfter_remove1
                    (s.text.take (get_index_from_pos s.text (s.cursorX, s.cursorY))) none v []
                    step1 (by simp)
                  rw [hdrop2]
                  simpa using step2
              · exfalso
                push_neg at hr
                have hout := get_index_out s.text s.cursorX s.cursorY hr
                omega
            next => simp at h
          · -- Backspace case 3: merge with the previous line
            rw [if_neg hg] at h
            rw [acm_up_eq, Option.bind_eq_bind, Option.some_bind] at h
            simp only [checkedSub] at h
            split at h
            next h2 =>
              rw [Option.bind_eq_bind, Option.some_bind] at h
              simp only [ropeRemove] at h
              split at h
              next hrem =>
                rw [Option.bind_eq_bind, Option.some_bind] at h
                simp only [Option.some.injEq] at h
                rw [← h]
                have hr : s.cursorY < (toLines s.text).length := by
                  by_contra hh
                  push_neg at hh
                  exact hg (gclLoop_out (toLines s.text) 0 s.cursorY (by omega))
                have hr1 : 1 ≤ s.cursorY := by omega
                have hidx : get_index_from_pos s.text (s.cursorX, s.cursorY)
                    = lenSum ((toLines s.text).take s.cursorY) := by
                  rw [get_index_in s.text s.cursorX s.cursorY hr, hxzero, Nat.add_zero]
                obtain ⟨hpre2, hnl, hcr⟩ := before_row s.text s.cursorY hok hr1 hr
                have hsplit := split2 s.text
                  (get_index_from_pos s.text (s.cursorX, s.cursorY) - 2) '\r' '\n'
                  (by rw [hidx]; exact hcr)
                  (by rw [hidx, (show lenSum ((toLines s.text).take s.cursorY) - 2 + 1
                    = lenSum ((toLines s.text).take s.cursorY) - 1 by
                      rw [← hidx]; omega)]; exact hnl)
                rw [(show get_index_from_pos s.text (s.cursorX, s.cursorY) - 2 + 2
                  = get_index_from_pos s.text (s.cursorX, s.cursorY) by omega)] at hsplit
                exact noLFAfter_removeRN _ none _ (by rw [← hsplit]; exact hok)
              next => simp at h
            next => simp at h

theorem noLFAfter_normalizeNL (s : List Char) :
    ∀ p, noLFAfter p (normalizeNL s) = true := by
  induction s with
  | nil => intro p; simp [normalizeNL, noLFAfter]
  | cons c t ih =>
    intro p
    by_cases hc : c = '\n'
    · simp only [normalizeNL, hc, if_pos rfl, List.cons_append, List.nil_append, noLFAfter]
      simp [ih (some '\n')]
    · simp only [normalizeNL, if_neg hc, List.cons_append, List.nil_append, noLFAfter]
      simp [ih (some c), hc]

theorem crlf_load (raw : List Char) : crlfOK (load raw) = true := by
  rw [load_eq_normalizeNL]
  exact noLFAfter_normalizeNL raw none

theorem handle_events_crlf (e : InEvent) (s t : MainState)
    (hok : crlfOK s.text = true)
    (hw : s.cursorX ≤ s.width - 1)
    (hh : s.cursorY ≤ s.height - 1)
    (hx : s.cursorX ≤ get_current_line_length s)
    (hch : ∀ c ctrl, e = InEvent.keyPress (KeyCode.char c) ctrl → c ≠ '\n')
    (h : handle_events e s = some (t, true)) :
    crlfOK t.text = true := by
  have hmap : (applyKey e s).map (fun u => (clampCursor u, true)) = some (t, true) := by
    cases e with
    | nonPress => exact h
    | keyPress code ctrl =>
      cases code with
      | esc => exfalso; simp [handle_events] at h
      | enter => exact h
      | up => exact h
      | down => exact h
      | left => exact h
      | right => exact h
      | backspace => exact h
      | char c => exact h
      | other => exact h
  rw [Option.map_eq_some'] at hmap
  obtain ⟨u, hu, huv⟩ := hmap
  injection huv with h1 h2
  rw [← h1]
  exact applyKey_preserves_crlf e s u hok hw hh hx hch hu

/-- C4 counterexample, two scenarios.  First: from the freshly loaded file
`"ab\n"` (buffer `"ab\r\n"`, invariant holds) in an 80x24 terminal,
pressing Right and then typing the character `'\n'` (a
`KeyCode::Char('\n')` key press, which `handle_events` inserts verbatim)
produces the buffer `"a\nb\r\n"`, whose line feed at index 1 is not
preceded by a carriage return: the invariant is not preserved by every
character insert.  Second: with the cursor off the bottom of the screen
(`cursor_pos = (1, 2)` in a terminal of height 2), `cursor::position()`
returns the terminal-clamped row 1 — the CR-LF line `"\r\n"` — so typing
the ordinary character `'x'` inserts it between that CR and LF, breaking
the invariant from an invariant state whose column is within the current
line's content length: without the on-screen restriction even non-LF
inserts can break the invariant. -/
theorem c4_counterexample :
    (⟨load ['a', 'b', '\n'], 0, 0, 80, 24⟩ : MainState)
      = ⟨['a', 'b', '\r', '\n'], 0, 0, 80, 24⟩
    ∧ handle_events (.keyPress .right false) ⟨['a', 'b', '\r', '\n'], 0, 0, 80, 24⟩
      = some (⟨['a', 'b', '\r', '\n'], 1, 0, 80, 24⟩, true)
    ∧ crlfOK ['a', 'b', '\r', '\n'] = true
    ∧ handle_events (.keyPress (.char '\n') false) ⟨['a', 'b', '\r', '\n'], 1, 0, 80, 24⟩
      = some (⟨['a', '\n', 'b', '\r', '\n'], 0, 0, 80, 24⟩, true)
    ∧ crlfOK ['a', '\n', 'b', '\r', '\n'] = false
    ∧ crlfOK ['a', '\r', '\n', '\r', '\n', 'c', 'd', '\r', '\n'] = true
    ∧ get_current_line_length
        ⟨['a', '\r', '\n', '\r', '\n', 'c', 'd', '\r', '\n'], 1, 2, 80, 2⟩ = 2
    ∧ handle_events (.keyPress (.char 'x') false)
        ⟨['a', '\r', '\n', '\r', '\n', 'c', 'd', '\r', '\n'], 1, 2, 80, 2⟩
      = some (⟨['a', '\r', '\n', '\r', 'x', '\n', 'c', 'd', '\r', '\n'], 2, 2, 80, 2⟩, true)
    ∧ crlfOK ['a', '\r', '\n', '\r', 'x', '\n', 'c', 'd', '\r', '\n'] = false := by
  refine ⟨by decide, by decide, by decide, by decide, by decide,
    by decide, by decide, by decide, by decide⟩

/-- C4 amended: the CR-LF buffer invariant (every line feed immediately
preceded by a carriage return) is established by construction from any
file contents, and is preserved by every handled event — cursor moves,
Enter, all three Backspace cases, save, and character inserts of every
character other than the line feed — from any state satisfying the
invariant whose cursor is on screen (column at most `width - 1`, row at
most `height - 1`, so that the `cursor::position()` read agrees with
`cursor_pos`) and whose cursor column is within the current line's
content length (which the per-event clamp maintains).  Inserting a
line-feed character can break the invariant, and so can editing with the
cursor off the bottom of the screen, where the buffer indices are
computed at the terminal-clamped row (see the counterexample). -/
theorem c4_crlf_invariant :
    (∀ raw : List Char, crlfOK (load raw) = true)
    ∧ (∀ (e : InEvent) (s t : MainState),
        crlfOK s.text = true →
        s.cursorX ≤ s.width - 1 →
        s.cursorY ≤ s.height - 1 →
        s.cursorX ≤ get_current_line_length s →
        (∀ c ctrl, e = InEvent.keyPress (KeyCode.char c) ctrl → c ≠ '\n') →
        handle_events e s = some (t, true) →
        crlfOK t.text = true) :=
  ⟨fun raw => crlf_load raw,
   fun e s t hok hw hh hx hch h => handle_events_crlf e s t hok hw hh hx hch h⟩

/-- Witness for C4: establishment on the file `"ab\n"`, and preservation
of the invariant across an Enter key press on the loaded buffer. -/
theorem c4_crlf_invariant_witness :
    crlfOK (load ['a', 'b', '\n']) = true
    ∧ crlfOK ['\r', '\n', 'a', 'b', '\r', '\n'] = true :=
  ⟨c4_crlf_invariant.1 ['a', 'b', '\n'],
   c4_crlf_invariant.2 (.keyPress .enter false) ⟨['a', 'b', '\r', '\n'], 0, 0, 80, 24⟩
     ⟨['\r', '\n', 'a', 'b', '\r', '\n'], 0, 1, 80, 24⟩ (by decide) (by decide)
     (by decide) (by decide) (by intro c ctrl hcc; simp at hcc) (by decide)⟩

-- ------------------------------------------------------------------
-- The per-event column clamp (claim C3)
-- ------------------------------------------------------------------

theorem handle_events_clamps (e : InEvent) (s t : MainState)
    (h : handle_events e s = some (t, true)) :
    t.cursorX ≤ get_current_line_length t := by
  have hmap : (applyKey e s).map (fun u => (clampCursor u, true)) = some (t, true) := by
    cases e with
    | nonPress => exact h
    | keyPress code ctrl =>
      cases code with
      | esc => exfalso; simp [handle_events] at h
      | enter => exact h
      | up => exact h
      | down => exact h
      | left => exact h
      | right => exact h
      | backspace => exact h
      | char c => exact h
      | other => exact h
  rw [Option.map_eq_some'] at hmap
  obtain ⟨u, -, huv⟩ := hmap
  injection huv with h1 h2
  rw [← h1]
  show min u.cursorX (get_current_line_length u % 65536)
    ≤ get_current_line_length (clampCursor u)
  have hsame : get_current_line_length (clampCursor u) = get_current_line_length u := rfl
  rw [hsame]
  calc min u.cursorX (get_current_line_length u % 65536)
      ≤ get_current_line_length u % 65536 := Nat.min_le_right _ _
    _ ≤ get_current_line_length u := Nat.mod_le _ _

theorem reachable_clamped (s : MainState) (h : Reachable s) :
    s.cursorX ≤ get_current_line_length s := by
  induction h with
  | init raw w h => exact Nat.zero_le _
  | step e s t _ hstep _ => exact handle_events_clamps e s t hstep

-- ------------------------------------------------------------------
-- The editor.rs step clamp (claim C3, editor.rs side)
-- ------------------------------------------------------------------

theorem acmE_frame (m : CursorMovement) (t t1 : EdState)
    (h : acmE m t = some t1) (hy : t.y ≤ t.height - 1) :
    t1.y ≤ t.height - 1 ∧ t1.width = t.width ∧ t1.height = t.height := by
  cases m with
  | up =>
    simp only [acmE, Option.some.injEq] at h
    split at h <;> (rw [← h]; exact ⟨by simp; omega, rfl, rfl⟩)
  | left =>
    simp only [acmE, Option.some.injEq] at h
    rw [← h]
    exact ⟨hy, rfl, rfl⟩
  | down =>
    simp only [acmE, checkedSub] at h
    split at h
    · rw [Option.bind_eq_bind, Option.some_bind] at h
      split at h
      · split at h
        · rw [Option.some_bind] at h
          split at h <;>
            (simp only [Option.some.injEq] at h; rw [← h]; refine ⟨?_, rfl, rfl⟩; simp)
        · simp at h
      · simp only [Option.some.injEq] at h
        rw [← h]
        exact ⟨hy, rfl, rfl⟩
    · simp at h
  | right =>
    simp only [acmE, gclE] at h
    cases hg : (toLines t.rope)[lineNumberE t]? with
    | none => rw [hg] at h; simp at h
    | some ln =>
      rw [hg] at h
      simp only [Option.bind_eq_bind, Option.some_bind, checkedSub] at h
      split at h
      · rw [Option.some_bind] at h
        split at h <;> (simp only [Option.some.injEq] at h; rw [← h]; exact ⟨hy, rfl, rfl⟩)
      · simp at h

theorem acmE_frame2 (m : CursorMovement) (t t1 : EdState) (H W : Nat)
    (h : acmE m t = some t1) (hH : t.height = H) (hW : t.width = W)
    (hy : t.y ≤ H - 1) :
    t1.y ≤ H - 1 ∧ t1.width = W ∧ t1.height = H := by
  subst hH
  subst hW
  exact acmE_frame m t t1 h hy

theorem stepArm_frame (e : InEvent) (t t1 : EdState)
    (h : stepArm e t = some t1) (hy : t.y ≤ t.height - 1) :
    t1.y ≤ t.height - 1 ∧ t1.width = t.width ∧ t1.height = t.height := by
  cases e with
  | nonPress =>
    simp only [stepArm, Option.some.injEq] at h
    rw [← h]
    exact ⟨hy, rfl, rfl⟩
  | keyPress code ctrl =>
    cases code with
    | esc =>
      simp only [stepArm, Option.some.injEq] at h
      rw [← h]
      exact ⟨hy, rfl, rfl⟩
    | other =>
      simp only [stepArm, Option.some.injEq] at h
      rw [← h]
      exact ⟨hy, rfl, rfl⟩
    | up => exact acmE_frame .up t t1 h hy
    | down => exact acmE_frame .down t t1 h hy
    | left => exact acmE_frame .left t t1 h hy
    | right => exact acmE_frame .right t t1 h hy
    | char c =>
      simp only [stepArm] at h
      split at h
      · simp only [Option.some.injEq] at h
        rw [← h]
        exact ⟨hy, rfl, rfl⟩
      · simp only [Option.bind_eq_bind] at h
        rw [Option.bind_eq_some] at h
        obtain ⟨rope, hrope, h⟩ := h
        exact acmE_frame2 .right _ t1 t.height t.width h rfl rfl hy
    | enter =>
      simp only [stepArm] at h
      simp only [Option.bind_eq_bind] at h
      rw [Option.bind_eq_some] at h
      obtain ⟨rope, hrope, h⟩ := h
      rw [Option.bind_eq_some] at h
      obtain ⟨t2, hacm, h⟩ := h
      simp only [Option.some.injEq] at h
      obtain ⟨hy2, hw2, hh2⟩ := acmE_frame2 .down _ t2 t.height t.width hacm rfl rfl hy
      rw [← h]
      exact ⟨hy2, hw2, hh2⟩
    | backspace =>
      simp only [stepArm] at h
      split at h
      · simp only [Option.bind_eq_bind] at h
        rw [Option.bind_eq_some] at h
        obtain ⟨a, ha, h⟩ := h
        rw [Option.bind_eq_some] at h
        obtain ⟨rope, hrope, h⟩ := h
        exact acmE_frame2 .left _ t1 t.height t.width h rfl rfl hy
      · simp only [Option.bind_eq_bind] at h
        rw [Option.bind_eq_some] at h
        obtain ⟨g, hg, h⟩ := h
        split at h
        · split at h <;>
            (rw [Option.bind_eq_some] at h
             obtain ⟨sc, hsc, h⟩ := h
             rw [Option.bind_eq_some] at h
             obtain ⟨rope, hrope, h⟩ := h
             rw [Option.bind_eq_some] at h
             obtain ⟨t2, hacm, h⟩ := h
             rw [Option.bind_eq_some] at h
             obtain ⟨n, hn, h⟩ := h
             simp only [Option.some.injEq] at h
             obtain ⟨hy2, hw2, hh2⟩ := acmE_frame2 .up _ t2 t.height t.width hacm rfl rfl hy
             rw [← h]
             exact ⟨hy2, hw2, hh2⟩)
        · split at h
          · split at h <;>
              (rw [Option.bind_eq_some] at h
               obtain ⟨sc, hsc, h⟩ := h
               rw [Option.bind_eq_some] at h
               obtain ⟨t2, hacm, h⟩ := h
               rw [Option.bind_eq_some] at h
               obtain ⟨n, hn, h⟩ := h
               rw [Option.bind_eq_some] at h
               obtain ⟨a, ha, h⟩ := h
               rw [Option.bind_eq_some] at h
               obtain ⟨rope, hrope, h⟩ := h
               simp only [Option.some.injEq] at h
               obtain ⟨hy2, hw2, hh2⟩ := acmE_frame2 .up _ t2 t.height t.width hacm rfl rfl hy
               rw [← h]
               exact ⟨hy2, hw2, hh2⟩)
          · simp only [Option.some.injEq] at h
            rw [← h]
            exact ⟨hy, rfl, rfl⟩

theorem gclE_congr (a b : EdState) (hr : a.rope = b.rope) (hy : a.y = b.y)
    (hs : a.scroll = b.scroll) : gclE a = gclE b := by
  simp [gclE, lineNumberE, hr, hy, hs]

theorem stepE_clamps (e : InEvent) (t u : EdState)
    (hy : t.y ≤ t.height - 1)
    (h : stepE e t = some (u, true)) :
    ∀ n, gclE u = some n → u.x ≤ n := by
  have hchain : ((stepArm e t).bind fun t1 =>
      (gclE t1).bind fun n =>
        some ({ t1 with x := min (min t1.x (n % 65536)) (t1.width - 1),
                        y := min t1.y (t1.height - 1) }, true)) = some (u, true) := by
    cases e with
    | nonPress => exact h
    | keyPress code ctrl =>
      cases code with
      | esc => exfalso; simp [stepE] at h
      | enter => exact h
      | up => exact h
      | down => exact h
      | left => exact h
      | right => exact h
      | backspace => exact h
      | char c => exact h
      | other => exact h
  rw [Option.bind_eq_some] at hchain
  obtain ⟨t1, harm, hchain⟩ := hchain
  rw [Option.bind_eq_some] at hchain
  obtain ⟨n0, hn0, hchain⟩ := hchain
  simp only [Option.some.injEq, Prod.mk.injEq] at hchain
  obtain ⟨hu, -⟩ := hchain
  obtain ⟨hy1, hw1, hh1⟩ := stepArm_frame e t t1 harm hy
  have hymin : min t1.y (t1.height - 1) = t1.y := by
    rw [hh1]
    exact Nat.min_eq_left hy1
  have hgu : gclE u = some n0 := by
    rw [← hn0]
    apply gclE_congr
    · rw [← hu]
    · rw [← hu]
      show min t1.y (t1.height - 1) = t1.y
      exact hymin
    · rw [← hu]
  intro n hn
  have hnn : n = n0 := by
    rw [hgu] at hn
    exact (Option.some.inj hn).symm
  calc u.x = min (min t1.x (n0 % 65536)) (t1.width - 1) := by rw [← hu]
    _ ≤ min t1.x (n0 % 65536) := Nat.min_le_left _ _
    _ ≤ n0 % 65536 := Nat.min_le_right _ _
    _ ≤ n0 := Nat.mod_le _ _
    _ = n := hnn.symm

/-- C3: in every state of the `main.rs` editor reachable by input events
the cursor column does not exceed the current line's content length — the
clamp on line 260 runs after every handled event, not only after vertical
moves; and in the `editor.rs` snapshot, whenever `step` completes (its
final lines 158-166 re-apply the clamp), the resulting terminal cursor
column is at most the current line's content length whenever that length
is computed without fault. -/
theorem c3_cursor_column_clamped :
    (∀ s : MainState, Reachable s → s.cursorX ≤ get_current_line_length s)
    ∧ (∀ (e : InEvent) (t u : EdState), t.y ≤ t.height - 1 →
        stepE e t = some (u, true) →
        ∀ n, gclE u = some n → u.x ≤ n) :=
  ⟨fun s h => reachable_clamped s h,
   fun e t u hy h n hn => stepE_clamps e t u hy h n hn⟩

/-- Witness for C3 at the freshly loaded `main.rs` state for the file
`"hi"`, and at an `editor.rs` Right key press on the two-char buffer
`"ab"` in an 80x24 terminal. -/
theorem c3_cursor_column_clamped_witness :
    (⟨load ['h', 'i'], 0, 0, 80, 24⟩ : MainState).cursorX
      ≤ get_current_line_length ⟨load ['h', 'i'], 0, 0, 80, 24⟩
    ∧ (⟨['a', 'b'], 0, 0, 0, 80, 24⟩ : EdState).x ≤ 0 :=
  ⟨c3_cursor_column_clamped.1 _ (Reachable.init ['h', 'i'] 80 24),
   c3_cursor_column_clamped.2 (.keyPress .right false) ⟨['a', 'b'], 0, 0, 0, 80, 24⟩
     ⟨['a', 'b'], 0, 0, 0, 80, 24⟩ (by decide) (by decide) 0 (by decide)⟩

-- ------------------------------------------------------------------
-- Claim C8: Backspace at the origin
-- ------------------------------------------------------------------

/-- C8: Backspace with the cursor at absolute row 0, column 0 is a no-op:
in `main.rs` (guard `cursor_pos != (0,0)`) the state — buffer and cursor —
is returned unchanged and the loop continues; in `editor.rs` (absolute row
0 means terminal row 0 with scroll 0) none of the three branch guards
fire, so buffer, cursor and scroll are unchanged, provided the
`get_current_line_len` computation evaluated by the guards and the final
clamp does not fault (see claim C5 for the fault). -/
theorem c8_backspace_origin_noop (ctrl : Bool) (s : MainState) (t : EdState) (g : Nat)
    (hs : (s.cursorX, s.cursorY) = (0, 0))
    (ht : t.x = 0) (hty : t.y = 0) (hts : t.scroll = 0)
    (hg : gclE t = some g) :
    handle_events (.keyPress .backspace ctrl) s = some (s, true)
    ∧ stepE (.keyPress .backspace ctrl) t = some (t, true) := by
  constructor
  · obtain ⟨hx0, hy0⟩ : s.cursorX = 0 ∧ s.cursorY = 0 := by
      injection hs with h1 h2
      exact ⟨h1, h2⟩
    cases s with
    | mk text cx cy w hgt2 =>
      simp only at hx0 hy0
      subst hx0
      subst hy0
      simp [handle_events, applyKey, clampCursor]
  · cases t with
    | mk rope x y scroll w hgt =>
      simp only at ht hty hts
      subst ht
      subst hty
      subst hts
      simp only [stepE, stepArm, lineNumberE] at hg ⊢
      simp [hg, Option.bind_eq_bind, get_cursor_index]

/-- Witness for C8 at the buffer `"ab\r\n"` with both editors at the
origin. -/
theorem c8_backspace_origin_noop_witness :
    handle_events (.keyPress .backspace false) ⟨['a', 'b', '\r', '\n'], 0, 0, 80, 24⟩
      = some (⟨['a', 'b', '\r', '\n'], 0, 0, 80, 24⟩, true)
    ∧ stepE (.keyPress .backspace false) ⟨['a', 'b', '\r', '\n'], 0, 0, 0, 80, 24⟩
      = some (⟨['a', 'b', '\r', '\n'], 0, 0, 0, 80, 24⟩, true) :=
  c8_backspace_origin_noop false ⟨['a', 'b', '\r', '\n'], 0, 0, 80, 24⟩
    ⟨['a', 'b', '\r', '\n'], 0, 0, 0, 80, 24⟩ 2 (by decide) (by decide) (by decide)
    (by decide) (by decide)

-- ------------------------------------------------------------------
-- Claim C9: the Right cursor move
-- ------------------------------------------------------------------

/-- C9: Right adjusts the column by exactly one when it is strictly below
the current line length (cast to `u16`) and is otherwise a no-op; in
particular at end of line (`column = current_line_length`) it is a no-op,
and in every state it leaves the row (and in `editor.rs` also the scroll
and the buffer) unchanged — it never wraps to the next line.  In
`editor.rs` the terminal additionally clamps the new column to the screen
width. -/
theorem c9_right_move (s : MainState) (t : EdState) (n : Nat) (hg : gclE t = some n) :
    attempt_cursor_move .right s
      = some { s with cursorX := if s.cursorX < get_current_line_length s % 65536
                                 then s.cursorX + 1 else s.cursorX }
    ∧ (s.cursorX = get_current_line_length s → attempt_cursor_move .right s = some s)
    ∧ acmE .right t
      = some { t with x := if t.x < n % 65536 then min (t.x + 1) (t.width - 1) else t.x }
    ∧ (t.x = n → acmE .right t = some t) := by
  refine ⟨?_, ?_, ?_, ?_⟩
  · simp only [attempt_cursor_move]
    split
    case isTrue h => rfl
    case isFalse h => rfl
  · intro hxe
    simp only [attempt_cursor_move]
    have hne : ¬ s.cursorX < get_current_line_length s % 65536 := by
      rw [hxe]
      exact Nat.not_lt.mpr (Nat.mod_le _ _)
    rw [if_neg hne]
  · simp only [acmE, hg, Option.bind_eq_bind, Option.some_bind]
    split
    case isTrue h => rfl
    case isFalse h => rfl
  · intro hxe
    simp only [acmE, hg, Option.bind_eq_bind, Option.some_bind]
    have hne : ¬ t.x < n % 65536 := by
      rw [hxe]
      exact Nat.not_lt.mpr (Nat.mod_le _ _)
    rw [if_neg hne]

/-- Witness for C9 at the buffer `"ab\r\n"`: Right from column 0 moves to
column 1, and Right at column 2 (the content length) is a no-op. -/
theorem c9_right_move_witness :
    attempt_cursor_move .right ⟨['a', 'b', '\r', '\n'], 0, 0, 80, 24⟩
      = some ⟨['a', 'b', '\r', '\n'], 1, 0, 80, 24⟩
    ∧ attempt_cursor_move .right ⟨['a', 'b', '\r', '\n'], 2, 0, 80, 24⟩
      = some ⟨['a', 'b', '\r', '\n'], 2, 0, 80, 24⟩
    ∧ acmE .right ⟨['a', 'b', '\r', '\n'], 2, 0, 0, 80, 24⟩
      = some ⟨['a', 'b', '\r', '\n'], 2, 0, 0, 80, 24⟩ := by
  refine ⟨?_, ?_, ?_⟩
  · exact ((c9_right_move ⟨['a', 'b', '\r', '\n'], 0, 0, 80, 24⟩
      ⟨['a', 'b', '\r', '\n'], 0, 0, 0, 80, 24⟩ 2 (by decide)).1).trans (by decide)
  · exact (c9_right_move ⟨['a', 'b', '\r', '\n'], 2, 0, 80, 24⟩
      ⟨['a', 'b', '\r', '\n'], 2, 0, 0, 80, 24⟩ 2 (by decide)).2.1 (by decide)
  · exact (c9_right_move ⟨['a', 'b', '\r', '\n'], 2, 0, 80, 24⟩
      ⟨['a', 'b', '\r', '\n'], 2, 0, 0, 80, 24⟩ 2 (by decide)).2.2.2 (by decide)

-- ------------------------------------------------------------------
-- Claim C5: the line-length subtraction
-- ------------------------------------------------------------------

/-- C5: `main.rs::get_current_line_length` uses `saturating_sub(2)` and
returns 0 on the empty buffer's single empty line, but
`editor.rs::get_current_line_len` computes the unchecked `usize`
subtraction `len - 2`, which faults (modelled `none`) on any line shorter
than two bytes — for example the single empty line of an empty buffer, on
which every `editor.rs` event faults because `step` re-reads the line
length after every key, while `main.rs` handles the same event cleanly. -/
theorem c5_line_length_underflow :
    get_current_line_length ⟨[], 0, 0, 80, 24⟩ = 0
    ∧ get_current_line_length ⟨['a', '\r', '\n'], 1, 1, 80, 24⟩ = 0
    ∧ gclE ⟨[], 0, 0, 0, 80, 24⟩ = none
    ∧ stepE (.keyPress .other false) ⟨[], 0, 0, 0, 80, 24⟩ = none
    ∧ handle_events (.keyPress .other false) ⟨[], 0, 0, 80, 24⟩
      = some (⟨[], 0, 0, 80, 24⟩, true) := by
  refine ⟨by decide, by decide, by decide, by decide, by decide⟩

-- ------------------------------------------------------------------
-- Claim C6: rendering on parse failure
-- ------------------------------------------------------------------

/-- C6 counterexample: with the parser returning no tree on the nonempty
buffer `"ab"`, `main.rs::update_display` completes but emits no spans at
all — not the single untagged span of the whole buffer the claim
describes — and `editor.rs::redraw` unwraps the parse result and panics
(`none`). -/
theorem c6_counterexample :
    update_display_spans ['a', 'b'] none = some []
    ∧ (some [] : Option (List Span)) ≠ some [Span.plain ['a', 'b']]
    ∧ redrawE ['a', 'b'] 0 24 none = none := by
  refine ⟨rfl, by decide, rfl⟩

/-- C6 amended: when the syntax parser fails to produce a tree,
`main.rs::update_display` does not crash — the `if let Some(tree)` block
is skipped — but it emits no text spans whatsoever (the screen is cleared
and only the cursor is repositioned), rather than falling back to a single
untagged span of the buffer; `editor.rs::redraw` calls `.unwrap()` on the
parse result and panics. -/
theorem c6_parse_failure_render (text : List Char) (scroll height : Nat) :
    update_display_spans text none = some []
    ∧ redrawE text scroll height none = none :=
  ⟨rfl, rfl⟩

-- ------------------------------------------------------------------
-- Claim C10: leaf extraction from the syntax tree
-- ------------------------------------------------------------------

theorem sizeOf_mem_children (k sr sc er ec : Nat) (ch : List STree) (c : STree)
    (hc : c ∈ ch) : sizeOf c < sizeOf (STree.mk k sr sc er ec ch) := by
  have h1 : sizeOf c < sizeOf ch := List.sizeOf_lt_of_mem hc
  simp only [STree.mk.sizeOf_spec]
  omega

theorem expandList_eq_filter (l : List STree)
    (ih : ∀ c ∈ l, expand_node c = (preorder c).filter isLeaf) :
    expandList l = (preorderList l).filter isLeaf := by
  induction l with
  | nil => simp [expandList, preorderList]
  | cons c cs ihl =>
    rw [expandList, preorderList, List.filter_append]
    rw [ih c (by simp), ihl (fun d hd => ih d (by simp [hd]))]

theorem expand_node_eq_filter_aux :
    ∀ (N : Nat) (t : STree), sizeOf t ≤ N →
      expand_node t = (preorder t).filter isLeaf := by
  intro N
  induction N with
  | zero =>
    intro t h
    cases t with
    | mk k sr sc er ec ch =>
      simp only [STree.mk.sizeOf_spec] at h
      omega
  | succ N ih =>
    intro t h
    cases t with
    | mk k sr sc er ec ch =>
      have hch : ∀ c ∈ ch, expand_node c = (preorder c).filter isLeaf := by
        intro c hc
        apply ih
        have h1 := sizeOf_mem_children k sr sc er ec ch c hc
        omega
      rw [expand_node, preorder, expandList_eq_filter ch hch]
      rw [List.filter_cons]
      by_cases hE : ch.isEmpty
      · rw [if_pos hE, (show isLeaf (STree.mk k sr sc er ec ch) = true by
          simp [isLeaf, STree.children, hE]), if_pos rfl]
        simp
      · rw [if_neg hE]
        have hl : isLeaf (STree.mk k sr sc er ec ch) = false := by
          simp only [isLeaf, STree.children]
          exact Bool.of_not_eq_true hE
        rw [hl]
        simp

theorem expand_node_eq_filter (t : STree) :
    expand_node t = (preorder t).filter isLeaf :=
  expand_node_eq_filter_aux (sizeOf t) t (Nat.le_refl _)

/-- C10: `expand_node` (`editor.rs`) and the textually identical
`expand_nodes` (`main.rs`) return exactly the childless nodes of the tree
in depth-first, children-before-siblings traversal order: the result is
the leaf-filtered preorder traversal, every returned node has no children,
and every childless node of the traversal appears in the result. -/
theorem c10_expand_node_leaves (t : STree) :
    expand_node t = (preorder t).filter isLeaf
    ∧ expand_nodes t = (preorder t).filter isLeaf
    ∧ (∀ n ∈ expand_node t, n.children = [])
    ∧ (∀ n ∈ preorder t, isLeaf n = true → n ∈ expand_node t) := by
  refine ⟨expand_node_eq_filter t, expand_node_eq_filter t, ?_, ?_⟩
  · intro n hn
    rw [expand_node_eq_filter t] at hn
    have := List.of_mem_filter hn
    simpa [isLeaf, List.isEmpty_iff] using this
  · intro n hn hleaf
    rw [expand_node_eq_filter t]
    exact List.mem_filter.mpr ⟨hn, hleaf⟩

/-- Witness for C10 on a two-node tree: the root has one childless child,
which is the single extracted leaf. -/
theorem c10_expand_node_leaves_witness :
    STree.mk 2 0 0 0 1 [] ∈ expand_node (.mk 1 0 0 0 1 [.mk 2 0 0 0 1 []])
    ∧ (STree.mk 2 0 0 0 1 []).children = [] :=
  ⟨(c10_expand_node_leaves (.mk 1 0 0 0 1 [.mk 2 0 0 0 1 []])).2.2.2
      (.mk 2 0 0 0 1 [])
      (by simp [preorder, preorderList])
      (by simp [isLeaf, STree.children]),
   (c10_expand_node_leaves (.mk 1 0 0 0 1 [.mk 2 0 0 0 1 []])).2.2.1
      (.mk 2 0 0 0 1 [])
      ((c10_expand_node_leaves (.mk 1 0 0 0 1 [.mk 2 0 0 0 1 []])).2.2.2
        (.mk 2 0 0 0 1 [])
        (by simp [preorder, preorderList])
        (by simp [isLeaf, STree.children]))⟩
